import Mathlib

/-!
# forkbomb-killer: a shallow embedding of the watch registry, the tree tracker
and the rate engine

The development follows `src/inotify.cpp` and `src/main.cpp`.

* `std::unordered_map` is an association list with unique keys (`UMap`).
* `std::string` is a Lean `String`, read as its sequence of characters.
* System calls (`inotify_add_watch`, `inotify_rm_watch`, `read`, `open`, `write`,
  directory iteration, the steady clock) are inputs of the functions that make them.
* A C++ exception is a `Failure` value returned next to the state reached when it
  was thrown.
* The optional `MORE_EFFORT_REMOVAL` and `DEBUGGING_CLI` blocks are not compiled
  by default and are not part of the embedding.
* A time point of the steady clock is its `int64_t` count of nanoseconds. A `float`
  is a binary32 number, written as its integer count of units of `2^-149`; the
  arithmetic on it rounds to nearest, ties to even.
-/

namespace ForkbombKiller

/-! ## `std::unordered_map` -/

/-- A `std::unordered_map`: key/value pairs, at most one per key. -/
abbrev UMap (κ ν : Type) := List (κ × ν)

namespace UMap

variable {κ ν : Type} [DecidableEq κ]

/-- The value stored under `k`, if any (`find`, `at`, `operator[]` on a present key). -/
def at? : UMap κ ν → κ → Option ν
  | [], _ => none
  | (k', v) :: rest, k => if k' = k then some v else at? rest k

/-- Member test `contains`. -/
def contains (m : UMap κ ν) (k : κ) : Bool := (at? m k).isSome

/-- Method `insert`: nothing happens when the key is already present. -/
def insert (m : UMap κ ν) (k : κ) (v : ν) : UMap κ ν :=
  if contains m k then m else (k, v) :: m

/-- Method `erase(key)`. -/
def erase (m : UMap κ ν) (k : κ) : UMap κ ν := m.filter (fun p => decide (p.1 ≠ k))

/-- Replace the value stored under a present key (assignment through `at`). -/
def assign : UMap κ ν → κ → ν → UMap κ ν
  | [], _, _ => []
  | (k', v') :: rest, k, v => if k' = k then (k', v) :: rest else (k', v') :: assign rest k v

/-- Method `size`. -/
def size (m : UMap κ ν) : Nat := m.length

/-- The keys, in storage order. -/
def keys (m : UMap κ ν) : List κ := m.map Prod.fst

end UMap

/-! ## `inotify.h` / `inotify.cpp` -/

/-- Flag `IN_MODIFY`. -/
def IN_MODIFY : Nat := 0x00000002
/-- Flag `IN_MOVED_FROM`. -/
def IN_MOVED_FROM : Nat := 0x00000040
/-- Flag `IN_MOVED_TO`. -/
def IN_MOVED_TO : Nat := 0x00000080
/-- Flag `IN_CREATE`. -/
def IN_CREATE : Nat := 0x00000100
/-- Flag `IN_DELETE`. -/
def IN_DELETE : Nat := 0x00000200
/-- Flag `IN_DELETE_SELF`. -/
def IN_DELETE_SELF : Nat := 0x00000400
/-- Flag `IN_MOVE_SELF`. -/
def IN_MOVE_SELF : Nat := 0x00000800
/-- Flag `IN_IGNORED`. -/
def IN_IGNORED : Nat := 0x00008000
/-- Flag `IN_ISDIR`. -/
def IN_ISDIR : Nat := 0x40000000
/-- Error number `ENOENT`. -/
def ENOENT : Int := 2

/-- The C test `mask & flag`. -/
def hasFlag (mask flag : Nat) : Bool := decide (mask &&& flag ≠ 0)

/-- What can end a call early: the exceptions and exits of the program. -/
inductive Failure (ε : Type) where
  /-- Exception `throw InotifyError{e, msg}`. -/
  | inotifyError (e : Int)
  /-- Exception `std::out_of_range` from `unordered_map::at`. -/
  | out_of_range
  /-- Exception `std::bad_optional_access` from `optional::value`. -/
  | bad_optional_access
  /-- An exception thrown by a removal listener. -/
  | listener (e : ε)
  /-- Call of `bail`: the process exits. -/
  | bail
  /-- The blocking `read` never returns: the kernel has nothing more to deliver. -/
  | blocked
  /-- The bound on the depth of the directory walk was reached. -/
  | out_of_fuel
  /-- A range was read past its end: the behaviour of the program is undefined. -/
  | undefined
  deriving DecidableEq, Repr

/-- One record of the kernel, `struct inotify_event`, already decoded. -/
structure inotify_event where
  wd : Int
  mask : Nat
  cookie : Nat
  len : Nat
  name : String
  deriving DecidableEq, Repr

/-- The event handed to the caller, `struct InotifyEvent`. -/
structure InotifyEvent where
  watch : Int
  event_mask : Nat
  cookie : Nat
  path : Option String
  path_of_watch : String
  deriving DecidableEq, Repr

/-- A removal listener, `std::function<void(int, const std::string&)>`, acting on the
state `σ` it captured; `.error` is a thrown exception. A listener has no access to
the `Inotify` object. -/
abbrev Listener (σ ε : Type) := Int → String → σ → Except ε σ

/-- The fields of `class Inotify`; `buffer` holds the records between
`buffer_next_event_idx` and `buffer_filled_to_idx`. -/
structure Inotify (σ ε : Type) where
  by_watches : UMap Int String
  by_paths : UMap String Int
  removal_listener : List (Listener σ ε)
  buffer : List inotify_event

/-- One call of a removal listener: which listener (by position in
`removal_listener`), its arguments, and both maps as they stood at the call. -/
structure ListenerCall where
  index : Nat
  wd : Int
  path : String
  by_watches : UMap Int String
  by_paths : UMap String Int
  deriving DecidableEq, Repr

/-- The `Inotify` object, the state captured by the listeners, and the log of
listener calls made so far. -/
structure World (σ ε : Type) where
  i : Inotify σ ε
  user : σ
  calls : List ListenerCall

/-- The constructor `Inotify::Inotify()` with a fresh listener state. -/
def World.init {σ ε : Type} (s : σ) : World σ ε :=
  { i := { by_watches := [], by_paths := [], removal_listener := [], buffer := [] },
    user := s, calls := [] }

/-- Method `Inotify::addWatch(path, events_mask, path_relative_to_watch)`; `ret` and
`errno` are the result of `inotify_add_watch` on the final path. -/
def addWatch {σ ε : Type} (w : World σ ε) (path : String) (path_relative_to_watch : Int)
    (inotify_add_watch : String → Int × Int) : Except (Failure ε) Int × World σ ε :=
  let path? : Option String :=
    if path_relative_to_watch ≠ -1 then
      (UMap.at? w.i.by_watches path_relative_to_watch).map (fun d => d ++ "/" ++ path)
    else some path
  match path? with
  | none => (.error .out_of_range, w)
  | some path =>
    let watch := (inotify_add_watch path).1
    if watch < 0 then (.error (.inotifyError (inotify_add_watch path).2), w)
    else
      (.ok watch,
        { w with i := { w.i with by_watches := UMap.insert w.i.by_watches watch path,
                                 by_paths := UMap.insert w.i.by_paths path watch } })

/-- The loop of `Inotify::notify_all_removal_listeners`, from listener number `idx`. -/
def notifyFrom {σ ε : Type} (bw : UMap Int String) (bp : UMap String Int) (wd : Int)
    (path : String) : List (Listener σ ε) → Nat → σ → List ListenerCall →
    Option ε × σ × List ListenerCall
  | [], _, s, log => (none, s, log)
  | l :: ls, idx, s, log =>
    let log' := log ++ [{ index := idx, wd := wd, path := path, by_watches := bw, by_paths := bp }]
    match l wd path s with
    | .error e => (some e, s, log')
    | .ok s' => notifyFrom bw bp wd path ls (idx + 1) s' log'

/-- Method `Inotify::notify_all_removal_listeners(wd, path)`. -/
def notify_all_removal_listeners {σ ε : Type} (w : World σ ε) (wd : Int) (path : String) :
    Option ε × World σ ε :=
  let r := notifyFrom w.i.by_watches w.i.by_paths wd path w.i.removal_listener 0 w.user w.calls
  (r.1, { w with user := r.2.1, calls := r.2.2 })

/-- The three statements that end every removal: notify, then erase from both maps. -/
def purge {σ ε : Type} (w : World σ ε) (watch : Int) (path : String) :
    Except (Failure ε) Unit × World σ ε :=
  match notify_all_removal_listeners w watch path with
  | (some e, w') => (.error (.listener e), w')
  | (none, w') =>
    (.ok (), { w' with i := { w'.i with by_paths := UMap.erase w'.i.by_paths path,
                                        by_watches := UMap.erase w'.i.by_watches watch } })

/-- Method `Inotify::removeWatch(std::string const& path)`; `rc` and `errno` are the
result of `inotify_rm_watch`. -/
def removeWatch_path {σ ε : Type} (w : World σ ε) (path : String) (rc errno : Int) :
    Except (Failure ε) Unit × World σ ε :=
  match UMap.at? w.i.by_paths path with
  | none => (.error .out_of_range, w)
  | some watch =>
    if rc ≠ 0 then (.error (.inotifyError errno), w)
    else purge w watch path

/-- Method `Inotify::removeWatch(int watch)`. -/
def removeWatch_watch {σ ε : Type} (w : World σ ε) (watch : Int) (rc errno : Int) :
    Except (Failure ε) Unit × World σ ε :=
  if rc ≠ 0 then (.error (.inotifyError errno), w)
  else
    match UMap.at? w.i.by_watches watch with
    | none => (.error .out_of_range, w)
    | some path => purge w watch path

/-- Method `Inotify::addFileRemovalListener`. -/
def addFileRemovalListener {σ ε : Type} (w : World σ ε) (listener : Listener σ ε) : World σ ε :=
  { w with i := { w.i with removal_listener := w.i.removal_listener ++ [listener] } }

/-- The body of the loop of `Inotify::readEvent` over the records already in the
buffer: `none` when the buffer ran empty without an event to return. -/
def drainBuffer {σ ε : Type} : World σ ε → List inotify_event →
    Except (Failure ε) (Option InotifyEvent) × World σ ε
  | w, [] => (.ok none, { w with i := { w.i with buffer := [] } })
  | w, event :: rest =>
    let w1 : World σ ε := { w with i := { w.i with buffer := rest } }
    let new_event : InotifyEvent :=
      { watch := event.wd, event_mask := event.mask, cookie := event.cookie,
        path := if event.len ≠ 0 then some event.name else none,
        path_of_watch := (UMap.at? w1.i.by_watches event.wd).getD "" }
    match UMap.at? w1.i.by_watches new_event.watch with
    | none => drainBuffer w1 rest
    | some path =>
      if hasFlag new_event.event_mask IN_IGNORED then
        match purge w1 new_event.watch path with
        | (.error f, w2) => (.error f, w2)
        | (.ok _, w2) => drainBuffer w2 rest
      else (.ok (some new_event), w1)

/-- What one `read` on the inotify descriptor gives: a failure with its `errno`, or
whole records (none at all when `read` returned 0). -/
inductive ReadResult where
  | error (errno : Int)
  | records (rs : List inotify_event)
  deriving DecidableEq, Repr

/-- Method `Inotify::readEvent()`; `reads` are the results of the coming calls of
`read`. Returns the reads not yet made alongside. -/
def readEvent {σ ε : Type} : World σ ε → List ReadResult →
    Except (Failure ε) InotifyEvent × World σ ε × List ReadResult
  | w, [] =>
    match drainBuffer w w.i.buffer with
    | (.error f, w') => (.error f, w', [])
    | (.ok (some e), w') => (.ok e, w', [])
    | (.ok none, w') => (.error .blocked, w', [])
  | w, next :: later =>
    match drainBuffer w w.i.buffer with
    | (.error f, w') => (.error f, w', next :: later)
    | (.ok (some e), w') => (.ok e, w', next :: later)
    | (.ok none, w') =>
      match next with
      | .error errno => (.error (.inotifyError errno), w', later)
      | .records [] => (.error (.inotifyError 0), w', later)
      | .records (r :: rs) => readEvent { w' with i := { w'.i with buffer := r :: rs } } later

/-! ## `std::string` and `std::filesystem::path` (POSIX) -/

/-- Method `std::string::ends_with`. -/
def ends_with (s suffix : String) : Bool := suffix.data.isSuffixOf s.data

/-- Method `std::string::substr(0, n)`. -/
def substr0 (s : String) (n : Nat) : String := ⟨s.data.take n⟩

/-- The pieces of a character sequence between its slashes, empty ones included. -/
def splitSlash : List Char → List (List Char)
  | [] => [[]]
  | c :: cs =>
    if c = '/' then [] :: splitSlash cs
    else
      match splitSlash cs with
      | [] => [[c]]
      | seg :: segs => (c :: seg) :: segs

/-- Does the path start with the root directory (on POSIX: is it absolute)? -/
def has_root_directory (p : String) : Bool := p.data.head? == some '/'

/-- The filenames of a path: the non-empty pieces between slashes. -/
def path_names (p : String) : List String :=
  ((splitSlash p.data).filter (fun seg => !seg.isEmpty)).map String.mk

/-- Does the path end in a separator that follows a filename? -/
def has_trailing_separator (p : String) : Bool :=
  p.data.getLast? == some '/' && !(path_names p).isEmpty

/-- The elements met when iterating a path from `begin()` to `end()`: the root
directory, the filenames, and an empty filename after a trailing separator. -/
def path_elements (p : String) : List String :=
  (if has_root_directory p then ["/"] else []) ++ path_names p ++
    (if has_trailing_separator p then [""] else [])

/-- Method `path::filename()`: what follows the last separator. -/
def filename (p : String) : String := ⟨((splitSlash p.data).getLast?).getD []⟩

/-- Operator `path / p`: `p` alone when `p` is absolute, else `p` appended after a
separator (none is added when the left side has no filename). -/
def path_append (a p : String) : String :=
  if has_root_directory p then p
  else if !(filename a).data.isEmpty then a ++ "/" ++ p
  else a ++ p

/-- The filename stack of `lexically_normal`: dots go, a filename followed by
dot-dot goes with it, dot-dot under the root goes. The flag tells whether the
result so far ends in a separator. -/
def normalizeNames (root : Bool) : List String → Bool → List String × Bool → List String × Bool
  | [], _, acc => acc
  | c :: cs, lastSep, (stack, _) =>
    let followed : Bool := !cs.isEmpty || lastSep
    if c = "." then normalizeNames root cs lastSep (stack, !stack.isEmpty)
    else if c = ".." then
      match stack.getLast? with
      | some top =>
        if top = ".." then normalizeNames root cs lastSep (stack ++ [c], followed)
        else normalizeNames root cs lastSep (stack.dropLast, !stack.dropLast.isEmpty)
      | none =>
        if root then normalizeNames root cs lastSep (stack, false)
        else normalizeNames root cs lastSep (stack ++ [c], followed)
    else normalizeNames root cs lastSep (stack ++ [c], followed)

/-- Method `path::lexically_normal()`. -/
def lexically_normal (p : String) : String :=
  if p.data.isEmpty then p
  else
    let root := has_root_directory p
    let r := normalizeNames root (path_names p) (has_trailing_separator p) ([], false)
    let trail : Bool := r.2 && r.1.getLast? != some ".."
    if r.1.isEmpty then (if root then "/" else ".")
    else (if root then "/" else "") ++ "/".intercalate r.1 ++ (if trail then "/" else "")

/-! ## `main.cpp` -/

/-- The constant `filename_to_listen_to`. -/
def filename_to_listen_to : String := "pids.events"

/-- Algorithm `std::mismatch(first1, last1, first2)` on path elements: what is left
of the first range at the first difference; `none` when the second range ends
first, where the algorithm reads past its end. -/
def mismatch : List String → List String → Option (List String)
  | [], _ => some []
  | _ :: _, [] => none
  | h :: hs, l :: ls => if h = l then mismatch hs ls else some (h :: hs)

/-- Function `is_inside_dir(higher, lower)`; `none` is undefined behaviour. -/
def is_inside_dir (higher lower : String) : Option Bool :=
  let lower := lexically_normal lower
  let higher := lexically_normal higher
  (mismatch (path_elements higher) (path_elements lower)).map (fun higher_end => higher_end.isEmpty)

/-- The loop `for (auto& ex_path : excludes) if (is_inside_dir(ex_path, path)) return;`:
`some true` when the function returns from inside the loop. -/
def excluded : List String → String → Option Bool
  | [], _ => some false
  | ex_path :: rest, path =>
    match is_inside_dir ex_path path with
    | none => none
    | some true => some true
    | some false => excluded rest path

/-! ## `float` arithmetic of `std::chrono` -/

/-- The least `e`, searched upward from the third argument, at which `n / 2^e` fits
24 bits; the first argument bounds the search. -/
def excess_bits : Nat → Nat → Nat → Nat
  | 0, _, e => e
  | fuel + 1, n, e => if n / 2 ^ e < 2 ^ 24 then e else excess_bits fuel n (e + 1)

/-- Rounding of a magnitude to a significand of 24 bits, to nearest and ties to
even: the magnitudes below `2^24` are kept, which covers the subnormal numbers. -/
def round_significand (n : Nat) : Nat :=
  let e := excess_bits n n 0
  let q := n / 2 ^ e
  let r := n % 2 ^ e
  if 2 * r < 2 ^ e then q * 2 ^ e
  else if 2 * r = 2 ^ e then (if q % 2 = 0 then q else q + 1) * 2 ^ e
  else (q + 1) * 2 ^ e

/-- The binary32 number nearest to a multiple `x` of `2^-149`, in the same unit. The
largest finite binary32 is not a bound here: the numbers beyond it stand for the
infinities, which compare with time points in the same way. -/
def round_binary32 (x : Int) : Int :=
  if x < 0 then -((round_significand x.natAbs : Nat) : Int)
  else ((round_significand x.natAbs : Nat) : Int)

/-- Conversion of a count of nanoseconds to `duration<float, nano>`:
`static_cast<float>(count)`. -/
def float_of_ticks (t : Int) : Int := round_binary32 (t * 2 ^ 149)

/-- Conversion of `duration<float>(window_seconds)` to `duration<float, nano>`: the
product with `1e9`, in `float`. -/
def window_ticks (window_seconds : Int) : Int := round_binary32 (window_seconds * 10 ^ 9)

/-- The test `entry.first < now - std::chrono::duration<float>(a.window_seconds)`:
both sides are brought to `duration<float, nano>`, the difference is a `float`
difference. -/
def window_expired (window_seconds first now : Int) : Bool :=
  decide (float_of_ticks first <
    round_binary32 (float_of_ticks now - window_ticks window_seconds))

/-- The comparison `t_start < t_now - window` on the exact numbers, the window
being `window_seconds * 10^9` nanoseconds. -/
def window_expired_exact (window_seconds first now : Int) : Bool :=
  decide (first * 2 ^ 149 < now * 2 ^ 149 - window_seconds * 10 ^ 9)

/-- The whole nanoseconds of the exact window `window_seconds * 10^9`. -/
def window_ns (window_seconds : Int) : Int := (window_seconds * 10 ^ 9) / 2 ^ 149

/-- One second, in ticks of the steady clock. -/
def ticks_per_second : Int := 10 ^ 9

/-- The `float` value of a whole number of seconds that fits 24 bits. -/
def float_seconds (n : Int) : Int := n * 2 ^ 149

/-- The members of `class Args` that the core reads; `window_seconds` is a `float`,
in seconds, written in units of `2^-149`. An infinite window or a NaN is not among
these values: the window test is then constant, false for `+inf` and NaN as for any
window beyond the range of the clock, true for `-inf`. -/
structure Args where
  cgroup_path : String
  slice_path : String
  window_seconds : Int
  event_thresh : Nat

/-- One entry met by `std::filesystem::directory_iterator`. -/
structure DirEntry where
  name : String
  is_directory : Bool
  is_regular_file : Bool
  deriving DecidableEq, Repr

/-- What the operating system answers during one dispatch. -/
structure Env where
  /-- Result of `std::chrono::steady_clock::now()`. -/
  now : Int
  /-- Return value and `errno` of `inotify_add_watch` on a path. -/
  inotify_add_watch : String → Int × Int
  /-- The entries of a directory; `none` when it cannot be opened. -/
  directory_iterator : String → Option (List DirEntry)
  /-- Return value of `open(path, O_WRONLY)`. -/
  open_ret : Int
  /-- Return value of `write`. -/
  write_ret : Int

/-- A call made by `kill_group_for_pid_event` that reaches the operating system. -/
inductive Syscall where
  /-- Reading a file through `read_file`. -/
  | read_file (path : String)
  /-- Call `open(path, O_WRONLY)` and its return value. -/
  | open_wronly (path : String) (ret : Int)
  /-- Call `write(fd, data, len)` and its return value. -/
  | write (fd : Int) (data : List Nat) (ret : Int)
  /-- Call `close(fd)`. -/
  | close (fd : Int)
  deriving DecidableEq, Repr

/-- Function `kill_group_for_pid_event`: the calls it makes, in order, before it
returns; `none` when its `assert` fails and the process aborts. It has no exit but
its `return` statements. -/
def kill_group_for_pid_event (e : InotifyEvent) (open_ret write_ret : Int) :
    Option (List Syscall) :=
  if !ends_with e.path_of_watch ("/" ++ filename_to_listen_to) then none
  else
    let path := substr0 e.path_of_watch
      (e.path_of_watch.data.length - filename_to_listen_to.data.length)
    let logged : List Syscall :=
      [.read_file (path ++ "pids.current"), .read_file (path ++ "pids.peak"),
       .read_file (path ++ "pids.max"), .read_file (path ++ "pids.events")]
    let path := path ++ "cgroup.kill"
    let fd := open_ret
    if fd < 0 then some (logged ++ [.open_wronly path fd])
    else
      let data : List Nat := "1\n".data.map Char.toNat
      let len : Int := data.length
      let n_bytes := write_ret
      if n_bytes < 0 then some (logged ++ [.open_wronly path fd, .write fd data n_bytes, .close fd])
      else if n_bytes < len then
        some (logged ++ [.open_wronly path fd, .write fd data n_bytes, .close fd])
      else some (logged ++ [.open_wronly path fd, .write fd data n_bytes, .close fd])

/-- How one turn of the loop over the directory entries ends. -/
inductive LoopExit (ε : Type) where
  /-- Go on with the next entry. -/
  | next
  /-- Statement `return` inside the loop. -/
  | ret
  /-- An exception leaves the loop. -/
  | throw (f : Failure ε)

/-- The loop of `addAllRecursively` over the entries of `path`; `recur` is the
recursive call. -/
def walkEntries {σ ε : Type} (env : Env)
    (recur : World σ ε → String → Except (Failure ε) Unit × World σ ε)
    (path leaf : String) (excludes : List String) :
    World σ ε → List DirEntry → Except (Failure ε) Unit × World σ ε
  | w, [] => (.ok (), w)
  | w, dir_entry :: rest =>
    let p := path_append path dir_entry.name
    let body : LoopExit ε × World σ ε :=
      if dir_entry.is_directory then
        match recur w (path_append path p) with
        | (.ok _, w') => (.next, w')
        | (.error f, w') => (.throw f, w')
      else if dir_entry.is_regular_file && decide (filename p = leaf) then
        match excluded excludes (path_append path p) with
        | none => (.throw .undefined, w)
        | some true => (.ret, w)
        | some false =>
          match addWatch w p (-1) env.inotify_add_watch with
          | (.ok _, w') => (.next, w')
          | (.error f, w') => (.throw f, w')
      else (.next, w)
    match body with
    | (.next, w') => walkEntries env recur path leaf excludes w' rest
    | (.ret, w') => (.ok (), w')
    | (.throw (.inotifyError e), w') =>
      if e ≠ ENOENT then (.error (.inotifyError e), w')
      else walkEntries env recur path leaf excludes w' rest
    | (.throw f, w') => (.error f, w')

/-- Function `addAllRecursively(i, path, filename_to_listen_to, excludes)`; the first
argument bounds the depth of the recursion. -/
def addAllRecursively {σ ε : Type} (env : Env) :
    Nat → World σ ε → String → String → List String → Except (Failure ε) Unit × World σ ε
  | 0, w, _, _, _ => (.error .out_of_fuel, w)
  | fuel + 1, w, path, leaf, excludes =>
    match excluded excludes path with
    | none => (.error .undefined, w)
    | some true => (.ok (), w)
    | some false =>
      match addWatch w path (-1) env.inotify_add_watch with
      | (.error f, w1) => (.error f, w1)
      | (.ok _, w1) =>
        match env.directory_iterator path with
        | none => (.ok (), w1)
        | some entries =>
          walkEntries env (fun w' p => addAllRecursively env fuel w' p leaf excludes)
            path leaf excludes w1 entries

/-- The window map `pid_events`: per watch, the start of its window and the count. -/
abbrev PidEvents := UMap Int (Int × Nat)

/-- The `IN_MODIFY` branch of `deal_with_event` on the window map: the new map and
whether `kill_group_for_pid_event` is called. The count is a `uint64_t`. -/
def modify_branch (a : Args) (now : Int) (watch : Int) (pid_events : PidEvents) :
    PidEvents × Bool :=
  match UMap.at? pid_events watch with
  | some entry =>
    if window_expired a.window_seconds entry.1 now then
      (UMap.assign pid_events watch (now, 0), false)
    else
      let second := (entry.2 + 1) % 2 ^ 64
      if second ≥ a.event_thresh then (UMap.assign pid_events watch (entry.1, 0), true)
      else (UMap.assign pid_events watch (entry.1, second), false)
  | none => (UMap.insert pid_events watch (now, 1), false)

/-- The step of the code on the entry of the watch alone, with the 64-bit count. -/
def entry_step (a : Args) (now : Int) : Option (Int × Nat) → (Int × Nat) × Bool
  | none => ((now, 1), false)
  | some entry =>
    if window_expired a.window_seconds entry.1 now then ((now, 0), false)
    else if (entry.2 + 1) % 2 ^ 64 ≥ a.event_thresh then ((entry.1, 0), true)
    else ((entry.1, (entry.2 + 1) % 2 ^ 64), false)

/-- The run of `entry_step` over the clock readings of successive events: per
event, the number of kills and the entry afterwards. -/
def entry_run (a : Args) : Option (Int × Nat) → List Int → List (Nat × Option (Int × Nat))
  | _, [] => []
  | o, t :: ts =>
    ((if (entry_step a t o).2 then 1 else 0), some (entry_step a t o).1) ::
      entry_run a (some (entry_step a t o).1) ts

/-- What one call of `deal_with_event` leaves behind: how it ended, the state, and
the system calls of each kill it issued. -/
structure Dispatch (ε : Type) where
  result : Except (Failure ε) Unit
  world : World PidEvents ε
  kills : List (Option (List Syscall))

/-- The handler `catch (InotifyError e)` of `deal_with_event`: `ENOENT` is swallowed. -/
def catch_enoent {σ ε : Type} (r : Except (Failure ε) Unit × World σ ε) :
    Except (Failure ε) Unit × World σ ε :=
  match r with
  | (.error (.inotifyError e), w) => if e ≠ ENOENT then (.error (.inotifyError e), w) else (.ok (), w)
  | r => r

/-- Function `deal_with_event(i, a, e, pid_events, filename_to_listen_to)`; `fuel`
bounds the depth of the directory walk it may start. -/
def deal_with_event {ε : Type} (env : Env) (fuel : Nat) (a : Args) (e : InotifyEvent)
    (leaf : String) (w : World PidEvents ε) : Dispatch ε :=
  if hasFlag e.event_mask IN_CREATE then
    let r : Except (Failure ε) Unit × World PidEvents ε :=
      if hasFlag e.event_mask IN_ISDIR then
        match e.path with
        | none => (.error .bad_optional_access, w)
        | some name => addAllRecursively env fuel w (e.path_of_watch ++ "/" ++ name) leaf []
      else
        match e.path with
        | none => (.error .bail, w)
        | some name =>
          if name = leaf then
            match addWatch w name e.watch env.inotify_add_watch with
            | (.ok _, w') => (.ok (), w')
            | (.error f, w') => (.error f, w')
          else (.ok (), w)
    let r := catch_enoent r
    { result := r.1, world := r.2, kills := [] }
  else if hasFlag e.event_mask IN_MODIFY && ends_with e.path_of_watch ("/" ++ leaf) then
    let r := modify_branch a env.now e.watch w.user
    { result := .ok (), world := { w with user := r.1 },
      kills := if r.2 then [kill_group_for_pid_event e env.open_ret env.write_ret] else [] }
  else { result := .ok (), world := w, kills := [] }

/-- The listener registered by `main`: `pid_events.erase(wd)`. -/
def main_listener {ε : Type} : Listener PidEvents ε :=
  fun wd _ pid_events => .ok (UMap.erase pid_events wd)

/-- What the environment supplies to one turn of the event loop. -/
structure Turn where
  env : Env
  fuel : Nat

/-- The state of `main` inside its event loop, with the kills issued so far and the
results of `read` still to come. -/
structure MainState (ε : Type) where
  world : World PidEvents ε
  reads : List ReadResult
  kills : List (Option (List Syscall))
  stopped : Option (Failure ε)

/-- One turn of `while (true)` in `main`: `readEvent`, then `deal_with_event`. -/
def main_turn {ε : Type} (a : Args) (s : MainState ε) (t : Turn) : MainState ε :=
  match s.stopped with
  | some _ => s
  | none =>
    match readEvent s.world s.reads with
    | (.error f, w, reads) => { s with world := w, reads := reads, stopped := some f }
    | (.ok e, w, reads) =>
      let d := deal_with_event t.env t.fuel a e filename_to_listen_to w
      { world := d.world, reads := reads, kills := s.kills ++ d.kills,
        stopped := match d.result with | .ok _ => none | .error f => some f }

/-- The `try` block of `main` up to the event loop, for a given list of excludes:
the first walk, then the registration of the listener. -/
def main_startup {ε : Type} (a : Args) (excludes : List String) (env : Env) (fuel : Nat)
    (reads : List ReadResult) : MainState ε :=
  let r := addAllRecursively env fuel (World.init ([] : PidEvents))
    (a.cgroup_path ++ a.slice_path) filename_to_listen_to excludes
  match r.1 with
  | .error f => { world := r.2, reads := reads, kills := [], stopped := some f }
  | .ok _ =>
    { world := addFileRemovalListener r.2 main_listener, reads := reads, kills := [],
      stopped := none }

/-- The excludes that `main` passes to the first walk. -/
def main_excludes (a : Args) : List String := [a.cgroup_path ++ "/user.slice/user-0.slice"]

/-- Function `main` after argument parsing: start up, then take the turns. -/
def main {ε : Type} (a : Args) (env : Env) (fuel : Nat) (reads : List ReadResult)
    (turns : List Turn) : MainState ε :=
  turns.foldl (main_turn a) (main_startup a (main_excludes a) env fuel reads)

/-! ## Vocabulary of the properties -/

/-- An operation on the registry, with what the kernel answers to it. -/
inductive RegistryOp where
  /-- Call `addWatch(path, mask, path_relative_to_watch)`; the kernel returns `ret`. -/
  | add (path : String) (path_relative_to_watch : Int) (ret errno : Int)
  /-- Call `removeWatch(watch)`; `inotify_rm_watch` returns `rc`. -/
  | remove_watch (watch : Int) (rc errno : Int)
  /-- Call `removeWatch(path)`; `inotify_rm_watch` returns `rc`. -/
  | remove_path (path : String) (rc errno : Int)
  /-- Call `readEvent` meets one `IN_IGNORED` record for `watch`. -/
  | ignored (watch : Int)
  deriving DecidableEq, Repr

/-- The record the kernel queues when it drops a watch. -/
def ignored_record (watch : Int) : inotify_event :=
  { wd := watch, mask := IN_IGNORED, cookie := 0, len := 0, name := "" }

/-- The state after one registry operation (where it stood if the operation threw). -/
def applyOp {σ ε : Type} (w : World σ ε) : RegistryOp → World σ ε
  | .add path rel ret errno => (addWatch w path rel (fun _ => (ret, errno))).2
  | .remove_watch watch rc errno => (removeWatch_watch w watch rc errno).2
  | .remove_path path rc errno => (removeWatch_path w path rc errno).2
  | .ignored watch => (readEvent w [.records [ignored_record watch]]).2.1

/-- The two maps are exact inverses. -/
def InverseMaps {σ ε : Type} (w : World σ ε) : Prop :=
  ∀ (h : Int) (p : String), UMap.at? w.i.by_watches h = some p ↔ UMap.at? w.i.by_paths p = some h

/-- The path that `addWatch` hands to the kernel, when it gets that far. -/
def watched_path {σ ε : Type} (w : World σ ε) (path : String) (path_relative_to_watch : Int) :
    Option String :=
  if path_relative_to_watch ≠ -1 then
    (UMap.at? w.i.by_watches path_relative_to_watch).map (fun d => d ++ "/" ++ path)
  else some path

/-- The answer of the kernel to an `add` agrees with the registry: it fails, or the
handle and the path are both new, or the handle is the one registered for the path. -/
def ConsistentOp {σ ε : Type} (w : World σ ε) : RegistryOp → Prop
  | .add path rel ret _ =>
    ret < 0 ∨ ∀ p, watched_path w path rel = some p →
      (UMap.at? w.i.by_watches ret = none ∧ UMap.at? w.i.by_paths p = none) ∨
      UMap.at? w.i.by_watches ret = some p
  | _ => True

/-- Every `add` of the run is answered in agreement with the registry it meets. -/
def ConsistentRun {σ ε : Type} : World σ ε → List RegistryOp → Prop
  | _, [] => True
  | w, op :: rest => ConsistentOp w op ∧ ConsistentRun (applyOp w op) rest

/-- A pure listener, one that always returns normally. -/
def total_listener {σ ε : Type} (f : Int → String → σ → σ) : Listener σ ε :=
  fun wd path s => .ok (f wd path s)

/-- The calls that notify listeners number `0` to `n - 1`, in this order, of the
removal of `(h, p)` while the maps are `bw` and `bp`. -/
def expected_calls (n : Nat) (h : Int) (p : String) (bw : UMap Int String)
    (bp : UMap String Int) : List ListenerCall :=
  (List.range n).map (fun k => { index := k, wd := h, path := p, by_watches := bw, by_paths := bp })

/-- The listener state after the pure listeners `fs` ran in order on `(h, p)`. -/
def run_listeners {σ : Type} (fs : List (Int → String → σ → σ)) (h : Int) (p : String) (s : σ) : σ :=
  fs.foldl (fun acc f => f h p acc) s

/-- The state after the removal of `(h, p)` under pure listeners `fs`: they ran in
order, each call is logged with the maps as they stood before, then the entry left
both maps; `buffer` is what remains to decode. -/
def after_removal {σ ε : Type} (w : World σ ε) (fs : List (Int → String → σ → σ)) (h : Int)
    (p : String) (buffer : List inotify_event) : World σ ε :=
  { i := { w.i with by_paths := UMap.erase w.i.by_paths p,
                    by_watches := UMap.erase w.i.by_watches h,
                    buffer := buffer },
    user := run_listeners fs h p w.user,
    calls := w.calls ++ expected_calls fs.length h p w.i.by_watches w.i.by_paths }

/-- A registry holding watch 5 on `/root/a`, with three listeners on a counter: the
second one throws, the other two count their calls. -/
def throwing_second_world : World Nat Unit :=
  { i := { by_watches := [(5, "/root/a")], by_paths := [("/root/a", 5)],
           removal_listener := [total_listener (fun _ _ n => n + 1), fun _ _ _ => .error (),
                                total_listener (fun _ _ n => n + 1)],
           buffer := [] },
    user := 0, calls := [] }

/-- A registry holding watch 5 on `/root/a`, with two listeners on a counter: the
first one throws, the second one counts its calls. -/
def failing_listener_world : World Nat Unit :=
  { i := { by_watches := [(5, "/root/a")], by_paths := [("/root/a", 5)],
           removal_listener := [fun _ _ _ => .error (), total_listener (fun _ _ n => n + 1)],
           buffer := [] },
    user := 0, calls := [] }

/-- A registry holding watches 5 and 6, with two counting listeners, and the event
stream that first drops an unknown watch, then watch 5, then modifies watch 6. -/
def counting_listener_world : World Nat Unit :=
  { i := { by_watches := [(6, "/root/b/pids.events"), (5, "/root/a")],
           by_paths := [("/root/b/pids.events", 6), ("/root/a", 5)],
           removal_listener := [total_listener (fun _ _ n => n + 1),
                                total_listener (fun _ _ n => 2 * n)],
           buffer := [] },
    user := 0, calls := [] }

/-- The records delivered by a list of reads, in order. -/
def all_records : List ReadResult → List inotify_event
  | [] => []
  | .error _ :: later => all_records later
  | .records rs :: later => rs ++ all_records later

/-- The event that `readEvent` builds from a record, but for `path_of_watch`. -/
def decoded_from (e : InotifyEvent) (r : inotify_event) : Prop :=
  e.watch = r.wd ∧ e.event_mask = r.mask ∧ e.cookie = r.cookie ∧
    e.path = (if r.len ≠ 0 then some r.name else none)

/-- A record that `readEvent` must not hand out under the map `bw`: its handle is
unknown or its mask contains `IN_IGNORED`. -/
def skipped_record (bw : UMap Int String) (r : inotify_event) : Prop :=
  UMap.at? bw r.wd = none ∨ hasFlag r.mask IN_IGNORED = true

/-- Every handle with a window entry is registered, and neither map repeats a key. -/
def WindowsLive {ε : Type} (w : World PidEvents ε) : Prop :=
  (UMap.keys w.user).Nodup ∧ (UMap.keys w.i.by_watches).Nodup ∧
    ∀ h, UMap.at? w.i.by_watches h = none → UMap.at? w.user h = none

/-- The step from `w` to `w'` only added watches: the listener state and the
listeners are the same, and every registered handle is still registered. -/
def Grows {σ ε : Type} (w w' : World σ ε) : Prop :=
  w'.user = w.user ∧ w'.i.removal_listener = w.i.removal_listener ∧
    ((UMap.keys w.i.by_watches).Nodup → (UMap.keys w'.i.by_watches).Nodup) ∧
    ∀ h, UMap.at? w'.i.by_watches h = none → UMap.at? w.i.by_watches h = none

/-- What holds of `main` between two turns of its loop: the window map is live, and
while the loop runs the one listener is the one that `main` registered. -/
def MainInv {ε : Type} (s : MainState ε) : Prop :=
  WindowsLive s.world ∧
    (s.world.i.removal_listener = [main_listener] ∨
      (s.world.i.removal_listener = [] ∧ s.world.user = [] ∧ s.stopped ≠ none))

/-- A cgroup `/sys/fs/cgroup/user.slice/a` with its `pids.events`, there at startup. -/
def one_cgroup_env : Env :=
  { now := 0,
    inotify_add_watch := fun p =>
      if p = "/sys/fs/cgroup/user.slice/" then (1, 0)
      else if p = "/sys/fs/cgroup/user.slice/a" then (2, 0)
      else if p = "/sys/fs/cgroup/user.slice/a/pids.events" then (3, 0)
      else (-1, ENOENT),
    directory_iterator := fun p =>
      if p = "/sys/fs/cgroup/user.slice/" then some [⟨"a", true, false⟩]
      else if p = "/sys/fs/cgroup/user.slice/a" then some [⟨"pids.events", false, true⟩]
      else some [],
    open_ret := 3, write_ret := 2 }

/-- Two failed forks in the cgroup of `one_cgroup_env`, then the cgroup goes away. -/
def one_cgroup_reads : List ReadResult :=
  [.records [{ wd := 3, mask := IN_MODIFY, cookie := 0, len := 0, name := "" },
             { wd := 3, mask := IN_MODIFY, cookie := 0, len := 0, name := "" }],
   .records [ignored_record 3,
             { wd := 1, mask := IN_DELETE ||| IN_ISDIR, cookie := 0, len := 16, name := "a" }]]

/-- The stream of `counting_listener_world`: an unknown watch, the drop of watch 5,
then a modification under watch 6. -/
def counting_reads : List ReadResult :=
  [.records [{ wd := 9, mask := IN_MODIFY, cookie := 0, len := 0, name := "" },
             ignored_record 5],
   .records [{ wd := 6, mask := IN_MODIFY, cookie := 0, len := 0, name := "" }]]

/-- A `MODIFY` event on the leaf watch `h` whose registry path is `path`. -/
def modify_event (h : Int) (path : String) : InotifyEvent :=
  { watch := h, event_mask := IN_MODIFY, cookie := 0, path := none, path_of_watch := path }

/-- An environment in which the clock reads `t`; nothing can be watched or listed,
`open` returns descriptor 3 and `write` writes both bytes. -/
def env_at (t : Int) : Env :=
  { now := t, inotify_add_watch := fun _ => (-1, ENOENT), directory_iterator := fun _ => none,
    open_ret := 3, write_ret := 2 }

/-- Dispatch the same event once per environment, in order: the final state and,
per dispatch, the number of kills issued and the window entry of the watch after it. -/
def dispatch_all {ε : Type} (a : Args) (e : InotifyEvent) (leaf : String) :
    World PidEvents ε → List Env → World PidEvents ε × List (Nat × Option (Int × Nat))
  | w, [] => (w, [])
  | w, env :: envs =>
    let d := deal_with_event env 0 a e leaf w
    let r := dispatch_all a e leaf d.world envs
    (r.1, (d.kills.length, UMap.at? d.world.user e.watch) :: r.2)

/-- The number of kills issued at each dispatch of `dispatch_all`. -/
def kill_counts {ε : Type} (a : Args) (e : InotifyEvent) (leaf : String)
    (w : World PidEvents ε) (envs : List Env) : List Nat :=
  (dispatch_all a e leaf w envs).2.map Prod.fst

/-- The count of the window entry after each dispatch of `dispatch_all`. -/
def entry_counts {ε : Type} (a : Args) (e : InotifyEvent) (leaf : String)
    (w : World PidEvents ε) (envs : List Env) : List (Option Nat) :=
  (dispatch_all a e leaf w envs).2.map (fun r => r.2.map Prod.snd)

/-- Some dispatch of the run issued a kill. -/
def kill_issued {ε : Type} (a : Args) (e : InotifyEvent) (leaf : String)
    (w : World PidEvents ε) (envs : List Env) : Bool :=
  (kill_counts a e leaf w envs).any (fun n => decide (0 < n))

/-- The rate-engine step in the words of the specification, on the entry of one
handle: the entry afterwards and whether a kill is issued. -/
def reference_entry (window_seconds : Int) (event_threshold : Nat) (t_now : Int) :
    Option (Int × Nat) → (Int × Nat) × Bool
  | none => ((t_now, 1), false)
  | some (t_start, n) =>
    if t_start < t_now - window_seconds then ((t_now, 0), false)
    else if n + 1 ≥ event_threshold then ((t_start, 0), true)
    else ((t_start, n + 1), false)

/-- The reading of "some interval of length `window_seconds` contains
`event_threshold` events, the event that opens the window not counted": some event
of the sequence is followed by at least `event_threshold` events no later than
`window_seconds` after it. -/
def counted_after_opener (window_seconds : Int) (event_threshold : Nat) : List Int → Bool
  | [] => false
  | t :: later =>
    decide (event_threshold ≤ (later.filter (fun u => decide (u ≤ t + window_seconds))).length)
      || counted_after_opener window_seconds event_threshold later

/-- The windows the rate engine goes through after an event at `start` opened one:
for each window in order, the number of events it holds after its opening event. A
window ends at the first event later than `window_seconds` after its start, and
that event opens the next one. -/
def window_counts (window_seconds : Int) : Int → Nat → List Int → List Nat
  | _, m, [] => [m]
  | start, m, t :: later =>
    if start < t - window_seconds then m :: window_counts window_seconds t 0 later
    else window_counts window_seconds start (m + 1) later

/-- The amended kill condition: the first window, whose opening event counts, holds
`event_threshold` events with at least one after the opening event, or a later
window holds `event_threshold` events after its opening event. -/
def window_reaches_threshold (window_seconds : Int) (event_threshold : Nat) : List Int → Prop
  | [] => False
  | t :: later =>
    match window_counts window_seconds t 0 later with
    | [] => False
    | first :: rest => (1 ≤ first ∧ event_threshold ≤ first + 1) ∨ ∃ m ∈ rest, event_threshold ≤ m

/-- The kills of a run, read off the times of its events paired with the number of
kills issued at each: for every kill, the time of the killing event and the times
of the events after the previous kill, the killing event included. The second
argument holds the times met since the previous kill. -/
def kill_windows : List (Int × Nat) → List Int → List (Int × List Int)
  | [], _ => []
  | (t, kills) :: rest, acc =>
    if 0 < kills then (t, acc ++ [t]) :: kill_windows rest []
    else kill_windows rest (acc ++ [t])

/-- The default arguments of the program. -/
def default_args : Args :=
  { cgroup_path := "/sys/fs/cgroup", slice_path := "/user.slice/",
    window_seconds := float_seconds 10, event_thresh := 50 }

/-- The default arguments but for the slice, given without its trailing slash
(`--slice /user.slice`). -/
def slice_args : Args :=
  { cgroup_path := "/sys/fs/cgroup", slice_path := "/user.slice",
    window_seconds := float_seconds 10, event_thresh := 50 }

/-- The arguments of the scenarios: a window of 10 seconds and a threshold of 3. -/
def scenario_args : Args :=
  { cgroup_path := "/sys/fs/cgroup", slice_path := "/user.slice/",
    window_seconds := float_seconds 10, event_thresh := 3 }

/-- A window of 10 seconds and a threshold of 2. -/
def pair_args : Args :=
  { cgroup_path := "/sys/fs/cgroup", slice_path := "/user.slice/",
    window_seconds := float_seconds 10, event_thresh := 2 }

/-- An environment whose clock reads `n` whole seconds, in nanosecond ticks. -/
def env_at_second (n : Int) : Env := env_at (n * ticks_per_second)

/-- A cgroup directory appears while the first walk is under way: the walk lists
it, and the kernel queues a `CREATE` event for it as well. The kernel hands out
watch 1 for the root and watch 2 for the new directory, whatever its spelling. -/
def racing_env : Env :=
  { now := 0,
    inotify_add_watch := fun p =>
      if p = "/sys/fs/cgroup/user.slice/" then (1, 0)
      else if p = "/sys/fs/cgroup/user.slice/user-1000.slice" then (2, 0)
      else if p = "/sys/fs/cgroup/user.slice//user-1000.slice" then (2, 0)
      else (-1, ENOENT),
    directory_iterator := fun p =>
      if p = "/sys/fs/cgroup/user.slice/" then some [⟨"user-1000.slice", true, false⟩]
      else some [],
    open_ret := 3, write_ret := 2 }

/-- The `CREATE` record queued for the directory of `racing_env`. -/
def racing_reads : List ReadResult :=
  [.records [{ wd := 1, mask := IN_CREATE ||| IN_ISDIR, cookie := 0, len := 16,
               name := "user-1000.slice" }]]

/-- The root slice is empty at startup; later `user-0.slice` is created with a
`pids.events` file in it. -/
def late_env : Env :=
  { now := 0,
    inotify_add_watch := fun p =>
      if p = "/sys/fs/cgroup/user.slice/" then (1, 0)
      else if p = "/sys/fs/cgroup/user.slice//user-0.slice" then (2, 0)
      else if p = "/sys/fs/cgroup/user.slice//user-0.slice/pids.events" then (3, 0)
      else (-1, ENOENT),
    directory_iterator := fun p =>
      if p = "/sys/fs/cgroup/user.slice//user-0.slice" then some [⟨"pids.events", false, true⟩]
      else some [],
    open_ret := 3, write_ret := 2 }

/-- The directory `user-0.slice` is already there at startup. -/
def early_env : Env :=
  { now := 0,
    inotify_add_watch := fun p =>
      if p = "/sys/fs/cgroup/user.slice/" then (1, 0)
      else if p = "/sys/fs/cgroup/user.slice/user-0.slice" then (2, 0)
      else (-1, ENOENT),
    directory_iterator := fun p =>
      if p = "/sys/fs/cgroup/user.slice/" then some [⟨"user-0.slice", true, false⟩]
      else some [],
    open_ret := 3, write_ret := 2 }

/-- The `CREATE` record for `user-0.slice` under the root watch. -/
def late_reads : List ReadResult :=
  [.records [{ wd := 1, mask := IN_CREATE ||| IN_ISDIR, cookie := 0, len := 16,
               name := "user-0.slice" }]]

end ForkbombKiller

namespace ForkbombKiller

/-! ## Facts about `UMap` -/

namespace UMap

variable {κ ν : Type} [DecidableEq κ]

theorem at?_insert_self {m : UMap κ ν} {k : κ} (v : ν) (h : at? m k = none) :
    at? (insert m k v) k = some v := by
  simp [insert, contains, h, at?]

theorem at?_insert_present {m : UMap κ ν} {k : κ} (v : ν) {v0 : ν} (h : at? m k = some v0) :
    insert m k v = m := by
  simp [insert, contains, h]

theorem at?_insert_of_ne {m : UMap κ ν} {k k' : κ} (v : ν) (h : k' ≠ k) :
    at? (insert m k v) k' = at? m k' := by
  unfold insert
  split
  · rfl
  · simp [at?, Ne.symm h]

theorem at?_assign_self {m : UMap κ ν} {k : κ} (v : ν) {v0 : ν} (h : at? m k = some v0) :
    at? (assign m k v) k = some v := by
  induction m with
  | nil => simp [at?] at h
  | cons hd tl ih =>
    obtain ⟨k', v'⟩ := hd
    by_cases hk : k' = k
    · simp [assign, at?, hk]
    · simp only [at?, hk, if_false] at h
      simp [assign, at?, hk, ih h]

theorem at?_assign_of_ne {m : UMap κ ν} {k k' : κ} (v : ν) (h : k' ≠ k) :
    at? (assign m k v) k' = at? m k' := by
  induction m with
  | nil => simp [assign]
  | cons hd tl ih =>
    obtain ⟨k0, v0⟩ := hd
    by_cases hk : k0 = k
    · subst hk
      simp [assign, at?, Ne.symm h]
    · by_cases hk' : k0 = k'
      · subst hk'
        simp [assign, at?, hk]
      · simp [assign, at?, hk, hk', ih]

theorem at?_erase_self (m : UMap κ ν) (k : κ) : at? (erase m k) k = none := by
  induction m with
  | nil => simp [erase, at?]
  | cons hd tl ih =>
    obtain ⟨k0, v0⟩ := hd
    by_cases hk : k0 = k
    · simpa [erase, hk] using ih
    · simpa [erase, hk, at?] using ih

theorem at?_erase_of_ne {m : UMap κ ν} {k k' : κ} (h : k' ≠ k) :
    at? (erase m k) k' = at? m k' := by
  induction m with
  | nil => simp [erase, at?]
  | cons hd tl ih =>
    obtain ⟨k0, v0⟩ := hd
    by_cases hk : k0 = k
    · subst hk
      simpa [erase, at?, Ne.symm h] using ih
    · by_cases hk' : k0 = k'
      · subst hk'
        simp [erase, hk, at?]
      · simpa [erase, hk, at?, hk'] using ih

theorem mem_keys_iff {m : UMap κ ν} {k : κ} : k ∈ keys m ↔ (at? m k).isSome = true := by
  induction m with
  | nil => simp [keys, at?]
  | cons hd tl ih =>
    obtain ⟨k0, v0⟩ := hd
    by_cases hk : k0 = k
    · simp [keys, at?, hk]
    · have : k ≠ k0 := fun h => hk h.symm
      simpa [keys, at?, hk, this] using ih

theorem keys_assign (m : UMap κ ν) (k : κ) (v : ν) : keys (assign m k v) = keys m := by
  induction m with
  | nil => simp [assign]
  | cons hd tl ih =>
    obtain ⟨k0, v0⟩ := hd
    by_cases hk : k0 = k
    · simp [assign, keys, hk]
    · simpa [assign, keys, hk] using ih

theorem keys_erase (m : UMap κ ν) (k : κ) :
    keys (erase m k) = (keys m).filter (fun x => decide (x ≠ k)) := by
  induction m with
  | nil => simp [erase, keys]
  | cons hd tl ih =>
    obtain ⟨k0, v0⟩ := hd
    by_cases hk : k0 = k
    · simpa [erase, keys, hk] using ih
    · simpa [erase, keys, hk] using ih

theorem nodup_keys_insert {m : UMap κ ν} (k : κ) (v : ν) (h : (keys m).Nodup) :
    (keys (insert m k v)).Nodup := by
  unfold insert
  split
  · exact h
  · rename_i hc
    have hk : k ∉ keys m := by
      intro hmem
      exact hc (by simpa [contains] using mem_keys_iff.1 hmem)
    simpa [keys] using And.intro (by simpa [keys] using hk) h

theorem nodup_keys_erase {m : UMap κ ν} (k : κ) (h : (keys m).Nodup) :
    (keys (erase m k)).Nodup := by
  rw [keys_erase]
  exact h.filter _

end UMap

/-! ## The rate engine, one step -/

theorem deal_with_event_modify {ε : Type} (env : Env) (fuel : Nat) (a : Args) (e : InotifyEvent)
    (leaf : String) (w : World PidEvents ε)
    (hc : hasFlag e.event_mask IN_CREATE = false) (hm : hasFlag e.event_mask IN_MODIFY = true)
    (hl : ends_with e.path_of_watch ("/" ++ leaf) = true) :
    deal_with_event env fuel a e leaf w =
      { result := .ok (),
        world := { w with user := (modify_branch a env.now e.watch w.user).1 },
        kills := if (modify_branch a env.now e.watch w.user).2
                 then [kill_group_for_pid_event e env.open_ret env.write_ret] else [] } := by
  simp [deal_with_event, hc, hm, hl]

theorem modify_branch_at (a : Args) (now : Int) (watch : Int) (m : PidEvents) :
    UMap.at? (modify_branch a now watch m).1 watch = some (entry_step a now (UMap.at? m watch)).1 ∧
    (modify_branch a now watch m).2 = (entry_step a now (UMap.at? m watch)).2 := by
  unfold modify_branch entry_step
  cases h : UMap.at? m watch with
  | none => simp [UMap.at?_insert_self _ h]
  | some entry =>
    simp only
    split_ifs <;> simp [UMap.at?_assign_self _ h]

theorem modify_branch_other (a : Args) (now : Int) (watch : Int) (m : PidEvents) (h' : Int)
    (hne : h' ≠ watch) : UMap.at? (modify_branch a now watch m).1 h' = UMap.at? m h' := by
  unfold modify_branch
  cases h : UMap.at? m watch with
  | none => simp [UMap.at?_insert_of_ne _ hne]
  | some entry =>
    simp only
    split_ifs <;> simp [UMap.at?_assign_of_ne _ hne]

theorem window_expired_exact_iff (window_seconds first now : Int) :
    window_expired_exact window_seconds first now =
      decide (first < now - window_ns window_seconds) := by
  unfold window_expired_exact window_ns
  have hU : (0 : Int) < 2 ^ 149 := by positivity
  have key : window_seconds * 10 ^ 9 / 2 ^ 149 < now - first ↔
      window_seconds * 10 ^ 9 < (now - first) * 2 ^ 149 := Int.ediv_lt_iff_lt_mul hU
  have hmul : (now - first) * (2 : Int) ^ 149 = now * 2 ^ 149 - first * 2 ^ 149 := by ring
  apply decide_eq_decide.2
  constructor
  · intro h
    have : window_seconds * 10 ^ 9 / 2 ^ 149 < now - first := key.2 (by rw [hmul]; linarith)
    linarith
  · intro h
    have := key.1 (by linarith)
    rw [hmul] at this
    linarith

theorem entry_step_eq_reference (a : Args) (T : Int) (now : Int) (o : Option (Int × Nat))
    (hn : ∀ entry, o = some entry → entry.2 + 1 < 2 ^ 64)
    (hx : ∀ entry, o = some entry →
      window_expired a.window_seconds entry.1 now = decide (entry.1 < now - T)) :
    entry_step a now o = reference_entry T a.event_thresh now o := by
  cases o with
  | none => rfl
  | some entry =>
    obtain ⟨t, n⟩ := entry
    have h1 := hn (t, n) rfl
    have h2 := hx (t, n) rfl
    simp only at h2
    simp only [entry_step, reference_entry, Nat.mod_eq_of_lt h1, h2, decide_eq_true_eq]

/-! ## The registry: inverse maps while the kernel answers consistently -/

theorem UMap.at?_insert_fresh {κ ν : Type} [DecidableEq κ] {m : UMap κ ν} {k : κ} (v : ν)
    (h : UMap.at? m k = none) (k' : κ) :
    UMap.at? (UMap.insert m k v) k' = if k = k' then some v else UMap.at? m k' := by
  simp [UMap.insert, UMap.contains, h, UMap.at?]

theorem UMap.at?_erase {κ ν : Type} [DecidableEq κ] (m : UMap κ ν) (k k' : κ) :
    UMap.at? (UMap.erase m k) k' = if k' = k then none else UMap.at? m k' := by
  by_cases h : k' = k
  · subst h; simp [UMap.at?_erase_self]
  · simp [h, UMap.at?_erase_of_ne h]

theorem inverse_insert_fresh {bw : UMap Int String} {bp : UMap String Int}
    (hinv : ∀ h p, UMap.at? bw h = some p ↔ UMap.at? bp p = some h) (r : Int) (p : String)
    (hb : UMap.at? bw r = none) (hp : UMap.at? bp p = none) :
    ∀ h q, UMap.at? (UMap.insert bw r p) h = some q ↔ UMap.at? (UMap.insert bp p r) q = some h := by
  intro h q
  rw [UMap.at?_insert_fresh _ hb, UMap.at?_insert_fresh _ hp]
  by_cases h1 : r = h <;> by_cases h2 : p = q
  · simp [h1, h2]
  · subst h1
    have : UMap.at? bp q ≠ some r := fun hc => by
      rw [← hinv, hb] at hc; cases hc
    simp [h2, this]
  · subst h2
    have : UMap.at? bw h ≠ some p := fun hc => by
      rw [hinv, hp] at hc; cases hc
    simp [h1, this]
  · simp [h1, h2, hinv]

theorem inverse_erase {bw : UMap Int String} {bp : UMap String Int}
    (hinv : ∀ h p, UMap.at? bw h = some p ↔ UMap.at? bp p = some h) (h0 : Int) (p0 : String)
    (hb : UMap.at? bw h0 = some p0) :
    ∀ h q, UMap.at? (UMap.erase bw h0) h = some q ↔ UMap.at? (UMap.erase bp p0) q = some h := by
  intro h q
  rw [UMap.at?_erase, UMap.at?_erase]
  by_cases h1 : h = h0 <;> by_cases h2 : q = p0
  · simp [h1, h2]
  · subst h1
    have : UMap.at? bp q ≠ some h := fun hc => by
      rw [← hinv, hb] at hc
      exact h2 (Option.some.inj hc).symm
    simp [h2, this]
  · subst h2
    have : UMap.at? bw h ≠ some q := fun hc => by
      rw [hinv, (hinv h0 q).1 hb] at hc
      exact h1 (Option.some.inj hc).symm
    simp [h1, this]
  · simp [h1, h2, hinv]

theorem addWatch_inverse {σ ε : Type} (w : World σ ε) (path : String) (rel ret errno : Int)
    (hinv : InverseMaps w) (hc : ConsistentOp w (.add path rel ret errno)) :
    InverseMaps (addWatch w path rel (fun _ => (ret, errno))).2 := by
  unfold addWatch
  simp only
  cases hwp : watched_path w path rel with
  | none =>
    simp only [watched_path] at hwp
    simp only [hwp]
    exact hinv
  | some p =>
    simp only [watched_path] at hwp
    simp only [hwp]
    split
    · exact hinv
    · rename_i hneg
      rcases hc with hc | hc
      · exact absurd hc hneg
      · rcases hc p (by simp only [watched_path, hwp]) with ⟨h1, h2⟩ | h1
        · exact inverse_insert_fresh hinv ret p h1 h2
        · have h2 := (hinv ret p).1 h1
          intro h q
          simp only [UMap.at?_insert_present _ h1, UMap.at?_insert_present _ h2]
          exact hinv h q

theorem purge_inverse {σ ε : Type} (w : World σ ε) (h : Int) (p : String) (hinv : InverseMaps w)
    (hb : UMap.at? w.i.by_watches h = some p) : InverseMaps (purge w h p).2 := by
  unfold purge notify_all_removal_listeners
  split
  · rename_i heq
    simp only [Prod.mk.injEq] at heq
    rw [← heq.2]
    exact hinv
  · rename_i heq
    simp only [Prod.mk.injEq] at heq
    rw [← heq.2]
    exact inverse_erase hinv h p hb

theorem drainBuffer_inverse {σ ε : Type} (recs : List inotify_event) :
    ∀ w : World σ ε, InverseMaps w → InverseMaps (drainBuffer w recs).2 := by
  induction recs with
  | nil => intro w h; exact h
  | cons r rest ih =>
    intro w hinv
    have hinv1 : InverseMaps ({ w with i := { w.i with buffer := rest } } : World σ ε) := hinv
    rw [drainBuffer]
    simp only
    split
    · exact ih _ hinv1
    · rename_i path hat
      split
      · have hp := purge_inverse ({ w with i := { w.i with buffer := rest } } : World σ ε)
          r.wd path hinv1 hat
        split
        · rename_i heq; rw [heq] at hp; exact hp
        · rename_i heq; rw [heq] at hp; exact ih _ hp
      · exact hinv1

theorem readEvent_inverse {σ ε : Type} (reads : List ReadResult) :
    ∀ w : World σ ε, InverseMaps w → InverseMaps (readEvent w reads).2.1 := by
  induction reads with
  | nil =>
    intro w hinv
    have hd := drainBuffer_inverse w.i.buffer w hinv
    rw [readEvent]
    split <;> rename_i heq <;> rw [heq] at hd <;> exact hd
  | cons next later ih =>
    intro w hinv
    have hd := drainBuffer_inverse w.i.buffer w hinv
    rw [readEvent]
    split
    · rename_i heq; rw [heq] at hd; exact hd
    · rename_i heq; rw [heq] at hd; exact hd
    · rename_i w0 heq
      rw [heq] at hd
      split
      · exact hd
      · exact hd
      · exact ih _ hd

theorem applyOp_inverse {σ ε : Type} (w : World σ ε) (op : RegistryOp) (hinv : InverseMaps w)
    (hc : ConsistentOp w op) : InverseMaps (applyOp w op) := by
  cases op with
  | add path rel ret errno => exact addWatch_inverse w path rel ret errno hinv hc
  | remove_watch watch rc errno =>
    simp only [applyOp, removeWatch_watch]
    split
    · exact hinv
    · split
      · exact hinv
      · rename_i p hat
        exact purge_inverse w watch p hinv hat
  | remove_path path rc errno =>
    simp only [applyOp, removeWatch_path]
    split
    · exact hinv
    · rename_i watch hat
      split
      · exact hinv
      · exact purge_inverse w watch path hinv ((hinv watch path).2 hat)
  | ignored watch => exact readEvent_inverse _ w hinv

/-- The maps stay exact inverses through every run of `addWatch`, both `removeWatch`
and `IGNORED` drains in which each `addWatch` is answered with a handle that is new
together with its path, or is the handle already registered for that path. -/
theorem inverse_maps_of_consistent_run {σ ε : Type} (ops : List RegistryOp) :
    ∀ w : World σ ε, InverseMaps w → ConsistentRun w ops → InverseMaps (ops.foldl applyOp w) := by
  induction ops with
  | nil => intro w h _; exact h
  | cons op rest ih =>
    intro w hinv hc
    exact ih _ (applyOp_inverse w op hinv hc.1) hc.2

/-! ## The registry under handle aliasing -/

/-- C1, evaluated where it fails. The kernel hands out one watch descriptor per
inode, so two spellings of one directory get the same handle. Part one: on the empty
registry, `addWatch` of `/sys/fs/cgroup/user.slice/user-1000.slice` and then of
`/sys/fs/cgroup/user.slice//user-1000.slice`, both answered with handle 2, leaves
`by_paths` with an entry for the second spelling that `by_watches` does not mirror.
Part two: `main` with its default arguments reaches that state when the directory
appears during the first walk (listed by the walk, then announced by `CREATE`). -/
theorem addWatch_alias_breaks_inverse_maps :
    (let w := [RegistryOp.add "/sys/fs/cgroup/user.slice/user-1000.slice" (-1) 2 0,
               RegistryOp.add "/sys/fs/cgroup/user.slice//user-1000.slice" (-1) 2 0].foldl
               applyOp (World.init (σ := Unit) (ε := Unit) ())
     UMap.at? w.i.by_paths "/sys/fs/cgroup/user.slice//user-1000.slice" = some 2 ∧
     UMap.at? w.i.by_watches 2 = some "/sys/fs/cgroup/user.slice/user-1000.slice" ∧
     ¬ InverseMaps w) ∧
    (let s := main (ε := Unit) default_args racing_env 2 racing_reads [⟨racing_env, 2⟩]
     s.stopped = none ∧
     s.world.i.by_paths =
       [("/sys/fs/cgroup/user.slice//user-1000.slice", 2),
        ("/sys/fs/cgroup/user.slice/user-1000.slice", 2),
        ("/sys/fs/cgroup/user.slice/", 1)] ∧
     s.world.i.by_watches =
       [(2, "/sys/fs/cgroup/user.slice/user-1000.slice"), (1, "/sys/fs/cgroup/user.slice/")] ∧
     ¬ InverseMaps s.world) := by
  refine ⟨⟨by decide, by decide, fun h => ?_⟩, by decide, by decide, by decide, fun h => ?_⟩
  · exact absurd ((h 2 "/sys/fs/cgroup/user.slice//user-1000.slice").2 (by decide)) (by decide)
  · exact absurd ((h 2 "/sys/fs/cgroup/user.slice//user-1000.slice").2 (by decide)) (by decide)

/-! ## Exclusion -/

/-- C4, evaluated where it fails. With the arguments and the exclude of `main`
(`/sys/fs/cgroup/user.slice/user-0.slice`): when the excluded directory exists at
startup the first walk leaves it unwatched, but when it is created after startup
the `CREATE` dispatch calls `addAllRecursively` without the excludes, and both the
directory and its `pids.events` are passed to `addWatch` and registered, although
`is_inside_dir` puts them inside the exclude. -/
theorem create_dispatch_ignores_excludes :
    main_excludes default_args = ["/sys/fs/cgroup/user.slice/user-0.slice"] ∧
    (main_startup (ε := Unit) default_args (main_excludes default_args) early_env 2 []).world.i.by_paths
      = [("/sys/fs/cgroup/user.slice/", 1)] ∧
    (let s := main (ε := Unit) default_args late_env 2 late_reads [⟨late_env, 2⟩]
     s.stopped = none ∧
     s.world.i.by_paths =
       [("/sys/fs/cgroup/user.slice//user-0.slice/pids.events", 3),
        ("/sys/fs/cgroup/user.slice//user-0.slice", 2),
        ("/sys/fs/cgroup/user.slice/", 1)]) ∧
    is_inside_dir "/sys/fs/cgroup/user.slice/user-0.slice"
      "/sys/fs/cgroup/user.slice//user-0.slice" = some true ∧
    is_inside_dir "/sys/fs/cgroup/user.slice/user-0.slice"
      "/sys/fs/cgroup/user.slice//user-0.slice/pids.events" = some true := by
  refine ⟨by decide, by decide, ⟨by decide, by decide⟩, by decide, by decide⟩

/-! ## The rate engine -/

theorem dispatch_all_eq_entry_run {ε : Type} (a : Args) (e : InotifyEvent) (leaf : String)
    (hc : hasFlag e.event_mask IN_CREATE = false) (hm : hasFlag e.event_mask IN_MODIFY = true)
    (hl : ends_with e.path_of_watch ("/" ++ leaf) = true) (envs : List Env) :
    ∀ w : World PidEvents ε, (dispatch_all a e leaf w envs).2 =
      entry_run a (UMap.at? w.user e.watch) (envs.map (fun env => env.now)) := by
  induction envs with
  | nil => intro w; rfl
  | cons env envs ih =>
    intro w
    have hb := modify_branch_at a env.now e.watch w.user
    simp only [dispatch_all, List.map_cons, entry_run, deal_with_event_modify env 0 a e leaf w hc hm hl]
    rw [ih]
    simp only [hb.1, hb.2]
    by_cases hk : (entry_step a env.now (UMap.at? w.user e.watch)).2 = true <;> simp [hk]

theorem modify_event_flags (h : Int) (path : String) :
    hasFlag (modify_event h path).event_mask IN_CREATE = false ∧
    hasFlag (modify_event h path).event_mask IN_MODIFY = true := by
  constructor
  · show hasFlag IN_MODIFY IN_CREATE = false
    decide
  · show hasFlag IN_MODIFY IN_MODIFY = true
    decide

/-- Where the `float` comparison of the code has the value of the exact one, a leaf
`MODIFY` dispatch of `deal_with_event` is the reference step of the specification on
the entry of the event's handle, and leaves the other entries and the registry as
they were. The stored count is taken below the largest `uint64_t`. -/
theorem deal_with_event_modify_eq_reference_of_exact {ε : Type} (env : Env) (fuel : Nat)
    (a : Args) (e : InotifyEvent) (leaf : String) (w : World PidEvents ε)
    (hc : hasFlag e.event_mask IN_CREATE = false) (hm : hasFlag e.event_mask IN_MODIFY = true)
    (hl : ends_with e.path_of_watch ("/" ++ leaf) = true)
    (hn : ∀ entry, UMap.at? w.user e.watch = some entry → entry.2 + 1 < 2 ^ 64)
    (hx : ∀ entry, UMap.at? w.user e.watch = some entry →
      window_expired a.window_seconds entry.1 env.now =
        window_expired_exact a.window_seconds entry.1 env.now) :
    (deal_with_event env fuel a e leaf w).result = .ok () ∧
    (deal_with_event env fuel a e leaf w).world.i = w.i ∧
    UMap.at? (deal_with_event env fuel a e leaf w).world.user e.watch =
      some (reference_entry (window_ns a.window_seconds) a.event_thresh env.now
        (UMap.at? w.user e.watch)).1 ∧
    (∀ h', h' ≠ e.watch →
      UMap.at? (deal_with_event env fuel a e leaf w).world.user h' = UMap.at? w.user h') ∧
    (deal_with_event env fuel a e leaf w).kills =
      (if (reference_entry (window_ns a.window_seconds) a.event_thresh env.now
            (UMap.at? w.user e.watch)).2
       then [kill_group_for_pid_event e env.open_ret env.write_ret] else []) := by
  have hb := modify_branch_at a env.now e.watch w.user
  rw [entry_step_eq_reference a (window_ns a.window_seconds) env.now _ hn
    (fun entry he => by rw [hx entry he, window_expired_exact_iff])] at hb
  rw [deal_with_event_modify env fuel a e leaf w hc hm hl]
  refine ⟨rfl, rfl, hb.1, fun h' hne => modify_branch_other a env.now e.watch w.user h' hne, ?_⟩
  simp only [hb.2]

set_option maxRecDepth 100000 in
/-- C5, evaluated where it fails. Window 10 s, entry `(0, 1)`, an event when the
clock reads `10^10 + 1` ns: on the exact numbers `0 < (10^10 + 1) - 10^10`, so the
reference step resets the entry to `(10^10 + 1, 0)`; the code converts the clock
reading to `float`, where `10^10 + 1` becomes `10^10`, finds `0 < 0` false and
counts the event: the entry is `(0, 2)`. The same at 116 days of uptime: entry
`(10^16, 1)` and an event 10.3 s later give `(10^16, 2)` where the reference step
resets the entry. -/
theorem float_window_test_departs_from_reference :
    window_expired_exact (float_seconds 10) 0 (10 ^ 10 + 1) = true ∧
    window_ns (float_seconds 10) = 10 ^ 10 ∧
    (reference_entry (10 ^ 10) 50 (10 ^ 10 + 1) (some (0, 1))).1 = (10 ^ 10 + 1, 0) ∧
    float_of_ticks (10 ^ 10 + 1) = float_of_ticks (10 ^ 10) ∧
    window_expired (float_seconds 10) 0 (10 ^ 10 + 1) = false ∧
    UMap.at? (deal_with_event (ε := Unit) (env_at (10 ^ 10 + 1)) 0 default_args
        (modify_event 7 "/root/c/pids.events") filename_to_listen_to
        { World.init [] with user := [(7, (0, 1))] }).world.user 7 = some (0, 2) ∧
    (reference_entry (10 ^ 10) 50 (10 ^ 16 + 103 * 10 ^ 8) (some (10 ^ 16, 1))).1
      = (10 ^ 16 + 103 * 10 ^ 8, 0) ∧
    UMap.at? (deal_with_event (ε := Unit) (env_at (10 ^ 16 + 103 * 10 ^ 8)) 0 default_args
        (modify_event 7 "/root/c/pids.events") filename_to_listen_to
        { World.init [] with user := [(7, (10 ^ 16, 1))] }).world.user 7
      = some (10 ^ 16, 2) := by
  refine ⟨by decide, by decide, by decide, by decide, by decide, by decide, by decide,
    by decide⟩

set_option maxRecDepth 100000 in
/-- C3, as stated, fails: with a window of 10 s and threshold 3, the four events
at `t = 0, 1, 2, 3` s do not give the kills `0, 0, 0, 1`; the kill comes at `t = 2`. -/
theorem scenario_kill_is_not_at_fourth_event :
    kill_counts (ε := Unit) scenario_args (modify_event 7 "/root/c/pids.events")
        filename_to_listen_to (World.init []) ([0, 1, 2, 3].map env_at_second) ≠ [0, 0, 0, 1] ∧
    kill_counts (ε := Unit) scenario_args (modify_event 7 "/root/c/pids.events")
        filename_to_listen_to (World.init []) ([0, 1, 2, 3].map env_at_second) = [0, 0, 1, 0] := by
  constructor <;> decide

set_option maxRecDepth 100000 in
theorem scenario_window_tests :
    window_expired (float_seconds 10) (0 * ticks_per_second) (1 * ticks_per_second) = false ∧
    window_expired (float_seconds 10) (0 * ticks_per_second) (2 * ticks_per_second) = false ∧
    window_expired (float_seconds 10) (0 * ticks_per_second) (3 * ticks_per_second) = false := by
  refine ⟨by decide, by decide, by decide⟩

theorem entry_run_four_in_window (a : Args) (t0 t1 t2 t3 : Int) (hK : a.event_thresh = 3)
    (h1 : window_expired a.window_seconds t0 t1 = false)
    (h2 : window_expired a.window_seconds t0 t2 = false)
    (h3 : window_expired a.window_seconds t0 t3 = false) :
    entry_run a none [t0, t1, t2, t3] =
      [(0, some (t0, 1)), (0, some (t0, 2)), (1, some (t0, 0)), (0, some (t0, 1))] := by
  simp [entry_run, entry_step, hK, h1, h2, h3]

/-- C3, amended. With a window of 10 seconds (the `float` 10.0) and a threshold of
3, four `MODIFY` events at `t = 0, 1, 2, 3` seconds of the steady clock on a leaf
handle that has no window entry leave the counts 1, 2, 0, 1: the first event opens
the window with count 1, no kill is issued at `t = 0` and `t = 1`, exactly one kill
is issued at `t = 2`, where the count reaches 3 and is reset, and none at `t = 3`. -/
theorem scenario_kill_at_third_event {ε : Type} (a : Args) (h : Int) (path : String)
    (w : World PidEvents ε) (hT : a.window_seconds = float_seconds 10)
    (hK : a.event_thresh = 3) (hl : ends_with path ("/" ++ filename_to_listen_to) = true)
    (hw : UMap.at? w.user h = none) :
    kill_counts a (modify_event h path) filename_to_listen_to w
        ([0, 1, 2, 3].map env_at_second) = [0, 0, 1, 0] ∧
    entry_counts a (modify_event h path) filename_to_listen_to w
        ([0, 1, 2, 3].map env_at_second) = [some 1, some 2, some 0, some 1] := by
  have hrun := dispatch_all_eq_entry_run (ε := ε) a (modify_event h path) filename_to_listen_to
    (modify_event_flags h path).1 (modify_event_flags h path).2 hl
    ([0, 1, 2, 3].map env_at_second) w
  have hw' : UMap.at? w.user (modify_event h path).watch = none := hw
  obtain ⟨h1, h2, h3⟩ := scenario_window_tests
  rw [← hT] at h1 h2 h3
  have hnow : ([0, 1, 2, 3].map env_at_second).map (fun env => env.now) =
      [0 * ticks_per_second, 1 * ticks_per_second, 2 * ticks_per_second,
       3 * ticks_per_second] := rfl
  simp only [kill_counts, entry_counts, hrun, hw', hnow,
    entry_run_four_in_window a _ _ _ _ hK h1 h2 h3]
  exact ⟨rfl, rfl⟩

/-- C3 amended, on the empty window map. -/
theorem scenario_kill_at_third_event_witness :
    kill_counts (ε := Unit) scenario_args (modify_event 7 "/root/c/pids.events")
        filename_to_listen_to (World.init []) ([0, 1, 2, 3].map env_at_second) = [0, 0, 1, 0] ∧
    entry_counts (ε := Unit) scenario_args (modify_event 7 "/root/c/pids.events")
        filename_to_listen_to (World.init []) ([0, 1, 2, 3].map env_at_second)
      = [some 1, some 2, some 0, some 1] :=
  scenario_kill_at_third_event (ε := Unit) scenario_args 7 "/root/c/pids.events"
    (World.init []) rfl rfl (by decide) (by decide)

/-! ## The kill action -/

theorem substr0_strip_leaf (d : String) :
    substr0 (d ++ "/pids.events")
      ((d ++ "/pids.events").data.length - filename_to_listen_to.data.length) = d ++ "/" := by
  apply String.ext
  have hlen : (d.data ++ "/pids.events".data).length - filename_to_listen_to.data.length
      = d.data.length + 1 := by
    simp [filename_to_listen_to]
  simp only [substr0, String.data_append, hlen]
  have hsplit : d.data ++ ['/', 'p', 'i', 'd', 's', '.', 'e', 'v', 'e', 'n', 't', 's']
      = (d.data ++ ['/']) ++ ['p', 'i', 'd', 's', '.', 'e', 'v', 'e', 'n', 't', 's'] := by simp
  have hl : d.data.length + 1 = (d.data ++ ['/']).length := by simp
  rw [hsplit, hl, List.take_left]

/-- C10. For a leaf path `d + "/pids.events"`, `kill_group_for_pid_event` reads the
four sibling files for the log, opens exactly `d + "/cgroup.kill"` write-only and,
when the open succeeded, makes exactly one `write`, of the two bytes `0x31 0x0A`,
and closes the descriptor, whatever `write` returned; when the open failed it makes
no further call. In each case this is the whole of what it does, and it returns. -/
theorem kill_group_for_pid_event_calls (e : InotifyEvent) (d : String) (open_ret write_ret : Int) :
    kill_group_for_pid_event { e with path_of_watch := d ++ "/pids.events" } open_ret write_ret =
      some ([Syscall.read_file (d ++ "/pids.current"), Syscall.read_file (d ++ "/pids.peak"),
         Syscall.read_file (d ++ "/pids.max"), Syscall.read_file (d ++ "/pids.events"),
         Syscall.open_wronly (d ++ "/cgroup.kill") open_ret] ++
        (if open_ret < 0 then []
         else [Syscall.write open_ret [0x31, 0x0A] write_ret, Syscall.close open_ret])) := by
  have hd : ∀ x : String, d ++ "/" ++ x = d ++ ("/" ++ x) := fun x => String.append_assoc _ _ _
  have hdata : ("1\n".data.map Char.toNat) = [0x31, 0x0A] := by decide
  have hends : ends_with (d ++ "/pids.events") ("/" ++ filename_to_listen_to) = true := by
    simp only [ends_with, String.data_append, List.isSuffixOf_iff_suffix]
    exact ⟨d.data, rfl⟩
  unfold kill_group_for_pid_event
  simp only [hends, substr0_strip_leaf, hdata]
  split_ifs <;> simp_all [hd]

/-! ## Removal listeners -/

theorem notifyFrom_total {σ ε : Type} (bw : UMap Int String) (bp : UMap String Int) (h : Int)
    (p : String) (fs : List (Int → String → σ → σ)) :
    ∀ (idx : Nat) (s : σ) (log : List ListenerCall),
      notifyFrom (ε := ε) bw bp h p (fs.map total_listener) idx s log =
        (none, run_listeners fs h p s,
         log ++ (List.range fs.length).map
           (fun k => { index := idx + k, wd := h, path := p, by_watches := bw, by_paths := bp })) := by
  induction fs with
  | nil => intro idx s log; simp [notifyFrom, run_listeners]
  | cons f fs ih =>
    intro idx s log
    simp only [List.map_cons, notifyFrom, total_listener, List.length_cons]
    have := ih (idx + 1) (f h p s) (log ++ [{ index := idx, wd := h, path := p, by_watches := bw, by_paths := bp }])
    simp only [total_listener] at this
    rw [this, List.range_succ_eq_map]
    simp [run_listeners, List.map_map, Function.comp_def, Nat.add_assoc, Nat.add_comm 1]

theorem notifyFrom_failing {σ ε : Type} (bw : UMap Int String) (bp : UMap String Int) (h : Int)
    (p : String) (pre : List (Int → String → σ → σ)) (lf : Listener σ ε)
    (post : List (Listener σ ε)) (e : ε) :
    ∀ (idx : Nat) (s : σ) (log : List ListenerCall),
      lf h p (run_listeners pre h p s) = .error e →
      notifyFrom bw bp h p (pre.map total_listener ++ lf :: post) idx s log =
        (some e, run_listeners pre h p s,
         log ++ (List.range (pre.length + 1)).map
           (fun k => { index := idx + k, wd := h, path := p, by_watches := bw, by_paths := bp })) := by
  induction pre with
  | nil =>
    intro idx s log hf
    simp only [run_listeners, List.foldl_nil] at hf
    have h1 : List.range 1 = [0] := rfl
    simp [notifyFrom, hf, run_listeners, h1]
  | cons f pre ih =>
    intro idx s log hf
    have hf' : lf h p (run_listeners pre h p (f h p s)) = .error e := by
      simpa [run_listeners] using hf
    have := ih (idx + 1) (f h p s) (log ++ [{ index := idx, wd := h, path := p, by_watches := bw, by_paths := bp }]) hf'
    simp only [List.map_cons, List.cons_append, notifyFrom, total_listener, List.length_cons]
    simp only [total_listener] at this
    rw [show (List.map total_listener pre).append (lf :: post)
      = List.map total_listener pre ++ lf :: post from rfl]
    rw [this, List.range_succ_eq_map (pre.length + 1)]
    simp [run_listeners, List.map_map, Function.comp_def, Nat.add_assoc, Nat.add_comm 1]

theorem purge_total {σ ε : Type} (w : World σ ε) (fs : List (Int → String → σ → σ)) (h : Int)
    (p : String) (hfs : w.i.removal_listener = fs.map total_listener) :
    purge w h p =
      (.ok (),
       { i := { w.i with by_paths := UMap.erase w.i.by_paths p,
                         by_watches := UMap.erase w.i.by_watches h },
         user := run_listeners fs h p w.user,
         calls := w.calls ++ expected_calls fs.length h p w.i.by_watches w.i.by_paths }) := by
  simp [purge, notify_all_removal_listeners, hfs, notifyFrom_total, expected_calls]

theorem purge_failing {σ ε : Type} (w : World σ ε) (pre : List (Int → String → σ → σ))
    (lf : Listener σ ε) (post : List (Listener σ ε)) (e : ε) (h : Int) (p : String)
    (hls : w.i.removal_listener = pre.map total_listener ++ lf :: post)
    (hf : lf h p (run_listeners pre h p w.user) = .error e) :
    purge w h p =
      (.error (.listener e),
       { w with user := run_listeners pre h p w.user,
                calls := w.calls ++ expected_calls (pre.length + 1) h p w.i.by_watches w.i.by_paths }) := by
  simp [purge, notify_all_removal_listeners, hls, notifyFrom_failing _ _ _ _ _ _ _ _ _ _ _ hf,
    expected_calls]

theorem readEvent_one_ignored {σ ε : Type} (w : World σ ε) (r : inotify_event) (p : String)
    (hb : w.i.buffer = []) (hw : UMap.at? w.i.by_watches r.wd = some p)
    (hi : hasFlag r.mask IN_IGNORED = true) :
    readEvent w [.records [r]] =
      match purge w r.wd p with
      | (.error f, w2) => (.error f, w2, [])
      | (.ok _, w2) => (.error .blocked, { w2 with i := { w2.i with buffer := [] } }, []) := by
  have hw0 : { w with i := { w.i with buffer := [] } } = w := by
    cases w with
    | mk i user calls =>
      cases i with
      | mk bw bp ls buf =>
        simp only at hb
        subst hb
        rfl
  rw [readEvent, hb]
  simp only [drainBuffer, hw0]
  rw [readEvent]
  simp only [drainBuffer, hw, hi, if_true, hw0]
  cases hpu : purge w r.wd p with
  | mk res w2 =>
    cases res with
    | error f => simp
    | ok u => simp [readEvent, drainBuffer]

theorem drainBuffer_ignored_head {σ ε : Type} (w : World σ ε) (fs : List (Int → String → σ → σ))
    (r : inotify_event) (p : String) (rest : List inotify_event)
    (hfs : w.i.removal_listener = fs.map total_listener)
    (hw : UMap.at? w.i.by_watches r.wd = some p) (hi : hasFlag r.mask IN_IGNORED = true) :
    drainBuffer w (r :: rest) = drainBuffer (after_removal w fs r.wd p rest) rest := by
  rw [drainBuffer]
  simp only [hw, hi, if_true]
  rw [purge_total ({ w with i := { w.i with buffer := rest } } : World σ ε) fs r.wd p hfs]
  rfl

theorem readEvent_ignored_head {σ ε : Type} (w : World σ ε) (fs : List (Int → String → σ → σ))
    (r : inotify_event) (p : String) (rest : List inotify_event) (reads : List ReadResult)
    (hfs : w.i.removal_listener = fs.map total_listener)
    (hw : UMap.at? w.i.by_watches r.wd = some p) (hi : hasFlag r.mask IN_IGNORED = true)
    (hb : w.i.buffer = r :: rest) :
    readEvent w reads = readEvent (after_removal w fs r.wd p rest) reads := by
  have hd := drainBuffer_ignored_head w fs r p rest hfs hw hi
  have hb2 : (after_removal w fs r.wd p rest).i.buffer = rest := rfl
  cases reads with
  | nil => rw [readEvent, readEvent, hb, hb2, hd]
  | cons next later => rw [readEvent, readEvent, hb, hb2, hd]

theorem readEvent_fresh_read {σ ε : Type} (w : World σ ε) (r : inotify_event)
    (rs : List inotify_event) (later : List ReadResult) (hb : w.i.buffer = []) :
    readEvent w (.records (r :: rs) :: later) =
      readEvent { w with i := { w.i with buffer := r :: rs } } later := by
  rw [readEvent, hb]
  simp only [drainBuffer]

/-- C6, as stated, fails: with three listeners of which the second throws,
`removeWatch(5)` on the registered watch 5 calls listeners 0 and 1 only; the third
listener is not called at all, and its counter shows one call, that of the first. -/
theorem throwing_listener_leaves_later_uncalled :
    UMap.at? throwing_second_world.i.by_watches 5 = some "/root/a" ∧
    throwing_second_world.i.removal_listener.length = 3 ∧
    (removeWatch_watch throwing_second_world 5 0 0).2.calls.map (fun c => c.index) = [0, 1] ∧
    (removeWatch_watch throwing_second_world 5 0 0).2.user = 1 := by
  refine ⟨by decide, by decide, by decide, by decide⟩

/-- C6, amended. For a registered handle `h` with registry path `p` and removal
listeners that return normally, each of the three removals (`removeWatch(h)`,
`removeWatch(p)`, and the drain by `readEvent` of an `IGNORED` record for `h`,
met at the head of the buffer or first in a fresh read) succeeds and adds to the
log exactly one call per registered listener, in registration order, each with the
arguments `(h, p)` and each made while both maps still hold the entry of `h`; the
listener state is the result of running them in that order, and only then does the
entry leave both maps. After a drain `readEvent` goes on with the next record. -/
theorem removal_calls_each_listener_once {σ ε : Type} (w : World σ ε)
    (fs : List (Int → String → σ → σ)) (h : Int) (p : String) (errno : Int) (r : inotify_event)
    (hfs : w.i.removal_listener = fs.map total_listener)
    (hw : UMap.at? w.i.by_watches h = some p) (hp : UMap.at? w.i.by_paths p = some h)
    (hr : r.wd = h) (hi : hasFlag r.mask IN_IGNORED = true) :
    removeWatch_watch w h 0 errno = (.ok (), after_removal w fs h p w.i.buffer) ∧
    removeWatch_path w p 0 errno = (.ok (), after_removal w fs h p w.i.buffer) ∧
    (∀ rest reads, w.i.buffer = r :: rest →
      readEvent w reads = readEvent (after_removal w fs h p rest) reads) ∧
    (∀ rs later, w.i.buffer = [] →
      readEvent w (.records (r :: rs) :: later) = readEvent (after_removal w fs h p rs) later) ∧
    (w.i.buffer = [] →
      (readEvent w [.records [r]]).2.1.calls =
          w.calls ++ expected_calls fs.length h p w.i.by_watches w.i.by_paths ∧
        (readEvent w [.records [r]]).2.1.user = run_listeners fs h p w.user) ∧
    (after_removal w fs h p w.i.buffer).calls =
      w.calls ++ expected_calls fs.length h p w.i.by_watches w.i.by_paths ∧
    (after_removal w fs h p w.i.buffer).user = run_listeners fs h p w.user ∧
    (expected_calls fs.length h p w.i.by_watches w.i.by_paths).map (fun c => c.index)
      = List.range fs.length ∧
    ∀ c ∈ expected_calls fs.length h p w.i.by_watches w.i.by_paths,
      c.wd = h ∧ c.path = p ∧ UMap.at? c.by_watches h = some p ∧ UMap.at? c.by_paths p = some h := by
  subst hr
  refine ⟨?_, ?_, ?_, ?_, ?_, rfl, rfl, ?_, ?_⟩
  · simp only [removeWatch_watch, hw, ne_eq, not_true_eq_false, if_false,
      purge_total w fs r.wd p hfs]
    rfl
  · simp only [removeWatch_path, hp, ne_eq, not_true_eq_false, if_false,
      purge_total w fs r.wd p hfs]
    rfl
  · intro rest reads hb
    exact readEvent_ignored_head w fs r p rest reads hfs hw hi hb
  · intro rs later hb
    rw [readEvent_fresh_read w r rs later hb]
    exact readEvent_ignored_head _ fs r p rs later hfs hw hi rfl
  · intro hb
    rw [readEvent_one_ignored w r p hb hw hi, purge_total w fs r.wd p hfs]
    simp
  · simp [expected_calls, List.map_map, Function.comp_def]
  · intro c hc
    simp only [expected_calls, List.mem_map] at hc
    obtain ⟨k, _, rfl⟩ := hc
    exact ⟨rfl, rfl, hw, hp⟩

/-- C6 amended, at a concrete registry: watch 5 on `/root/a`, two counting
listeners. -/
theorem removal_calls_each_listener_once_witness :
    (removeWatch_watch counting_listener_world 5 0 0).2.calls =
      expected_calls 2 5 "/root/a" counting_listener_world.i.by_watches
        counting_listener_world.i.by_paths ∧
    (removeWatch_watch counting_listener_world 5 0 0).2.user = 2 := by
  have h := removal_calls_each_listener_once counting_listener_world
    [fun _ _ n => n + 1, fun _ _ n => 2 * n] 5 "/root/a" 0 (ignored_record 5)
    rfl (by decide) (by decide) rfl (by decide)
  rw [h.1]
  exact ⟨rfl, rfl⟩

/-- C7, as stated, fails: with a first listener that throws and a second one that
counts its calls, `removeWatch(5)` calls only the first listener, the counter of
the second stays 0, the exception reaches the caller, and both maps still hold the
entry of watch 5. -/
theorem failing_listener_stops_removal :
    (removeWatch_watch failing_listener_world 5 0 0).1 = .error (.listener ()) ∧
    (removeWatch_watch failing_listener_world 5 0 0).2.calls.map (fun c => c.index) = [0] ∧
    (removeWatch_watch failing_listener_world 5 0 0).2.user = 0 ∧
    UMap.at? (removeWatch_watch failing_listener_world 5 0 0).2.i.by_watches 5 = some "/root/a" ∧
    UMap.at? (removeWatch_watch failing_listener_world 5 0 0).2.i.by_paths "/root/a" = some 5 := by
  refine ⟨rfl, by decide, by decide, by decide, by decide⟩

/-- C7, amended. When a listener throws during the removal of a registered handle
`h` with path `p` (by `removeWatch(h)`, `removeWatch(p)` or the drain of an `IGNORED`
record), the removal ends there with that exception: the listeners registered
before the failing one and the failing one itself have been called once each, in
order, with `(h, p)`; no listener registered after it is called; and `by_watches`
and `by_paths` are left as they were, so both still hold the entry of `h`. -/
theorem failing_listener_aborts_removal {σ ε : Type} (w : World σ ε)
    (pre : List (Int → String → σ → σ)) (lf : Listener σ ε) (post : List (Listener σ ε))
    (e : ε) (h : Int) (p : String) (errno : Int) (r : inotify_event)
    (hls : w.i.removal_listener = pre.map total_listener ++ lf :: post)
    (hf : lf h p (run_listeners pre h p w.user) = .error e)
    (hw : UMap.at? w.i.by_watches h = some p) (hp : UMap.at? w.i.by_paths p = some h)
    (hb : w.i.buffer = []) (hr : r.wd = h) (hi : hasFlag r.mask IN_IGNORED = true) :
    (removeWatch_watch w h 0 errno =
      (.error (.listener e),
       { w with user := run_listeners pre h p w.user,
                calls := w.calls ++ expected_calls (pre.length + 1) h p w.i.by_watches w.i.by_paths })) ∧
    (removeWatch_path w p 0 errno =
      (.error (.listener e),
       { w with user := run_listeners pre h p w.user,
                calls := w.calls ++ expected_calls (pre.length + 1) h p w.i.by_watches w.i.by_paths })) ∧
    (readEvent w [.records [r]] =
      (.error (.listener e),
       { w with user := run_listeners pre h p w.user,
                calls := w.calls ++ expected_calls (pre.length + 1) h p w.i.by_watches w.i.by_paths },
       [])) ∧
    (expected_calls (pre.length + 1) h p w.i.by_watches w.i.by_paths).map (fun c => c.index)
      = List.range (pre.length + 1) := by
  subst hr
  refine ⟨?_, ?_, ?_, ?_⟩
  · simp [removeWatch_watch, hw, purge_failing w pre lf post e r.wd p hls hf]
  · simp [removeWatch_path, hp, purge_failing w pre lf post e r.wd p hls hf]
  · rw [readEvent_one_ignored w r p hb hw hi, purge_failing w pre lf post e r.wd p hls hf]
  · simp [expected_calls, List.map_map, Function.comp_def]

/-- C7 amended, at the registry with a throwing first listener. -/
theorem failing_listener_aborts_removal_witness :
    removeWatch_watch failing_listener_world 5 0 0 =
      (.error (.listener ()),
       { failing_listener_world with
           user := run_listeners [] 5 "/root/a" failing_listener_world.user,
           calls := failing_listener_world.calls ++
             expected_calls 1 5 "/root/a" failing_listener_world.i.by_watches
               failing_listener_world.i.by_paths }) :=
  (failing_listener_aborts_removal failing_listener_world [] (fun _ _ _ => .error ())
    [total_listener (fun _ _ n => n + 1)] () 5 "/root/a" 0 (ignored_record 5)
    rfl rfl (by decide) (by decide) rfl rfl (by decide)).1

/-! ## `readEvent` -/

theorem purge_by_watches {σ ε : Type} (w : World σ ε) (h : Int) (p : String) :
    (purge w h p).2.i.by_watches = w.i.by_watches ∨
    (purge w h p).2.i.by_watches = UMap.erase w.i.by_watches h := by
  unfold purge notify_all_removal_listeners
  split
  · left
    rename_i heq
    simp only [Prod.mk.injEq] at heq
    rw [← heq.2]
  · right
    rename_i heq
    simp only [Prod.mk.injEq] at heq
    rw [← heq.2]

theorem at?_none_of_purge {σ ε : Type} (w : World σ ε) (h : Int) (p : String) (k : Int)
    (hk : UMap.at? w.i.by_watches k = none) : UMap.at? (purge w h p).2.i.by_watches k = none := by
  rcases purge_by_watches w h p with h1 | h1
  · rw [h1]; exact hk
  · rw [h1]
    by_cases hkh : k = h
    · subst hkh; exact UMap.at?_erase_self _ _
    · rw [UMap.at?_erase_of_ne hkh]; exact hk

theorem drainBuffer_event {σ ε : Type} (recs : List inotify_event) :
    ∀ (w : World σ ε) (e : InotifyEvent) (w' : World σ ε),
      drainBuffer w recs = (.ok (some e), w') →
      hasFlag e.event_mask IN_IGNORED = false ∧
      UMap.at? w'.i.by_watches e.watch = some e.path_of_watch ∧
      ∃ r ∈ recs, decoded_from e r := by
  induction recs with
  | nil => intro w e w' h; simp [drainBuffer] at h
  | cons r rest ih =>
    intro w e w' h
    rw [drainBuffer] at h
    simp only at h
    cases hat : UMap.at? w.i.by_watches r.wd with
    | none =>
      simp only [hat] at h
      obtain ⟨h1, h2, r', hr', hd⟩ := ih _ e w' h
      exact ⟨h1, h2, r', List.mem_cons_of_mem _ hr', hd⟩
    | some p =>
      simp only [hat] at h
      by_cases hi : hasFlag r.mask IN_IGNORED = true
      · simp only [hi, if_true] at h
        split at h
        · simp at h
        · obtain ⟨h1, h2, r', hr', hd⟩ := ih _ e w' h
          exact ⟨h1, h2, r', List.mem_cons_of_mem _ hr', hd⟩
      · simp only [hi] at h
        simp only [Bool.false_eq_true, if_false, Prod.mk.injEq, Except.ok.injEq,
          Option.some.injEq] at h
        obtain ⟨he, hw⟩ := h
        subst he
        subst hw
        refine ⟨by simpa using hi, by simp [hat], r, List.mem_cons_self _ _, ?_⟩
        exact ⟨rfl, rfl, rfl, rfl⟩

theorem drainBuffer_skipped {σ ε : Type} (recs : List inotify_event) :
    ∀ (w : World σ ε), (∀ r ∈ recs, skipped_record w.i.by_watches r) →
      (∀ e, (drainBuffer w recs).1 ≠ .ok (some e)) ∧
      ∀ k, UMap.at? w.i.by_watches k = none → UMap.at? (drainBuffer w recs).2.i.by_watches k = none := by
  induction recs with
  | nil => intro w _; simp [drainBuffer]
  | cons r rest ih =>
    intro w hs
    have hr := hs r (List.mem_cons_self _ _)
    have hrest : ∀ r' ∈ rest, skipped_record w.i.by_watches r' :=
      fun r' hr' => hs r' (List.mem_cons_of_mem _ hr')
    rw [drainBuffer]
    simp only
    cases hat : UMap.at? w.i.by_watches r.wd with
    | none => exact ih _ hrest
    | some p =>
      have hi : hasFlag r.mask IN_IGNORED = true := by
        rcases hr with h1 | h1
        · rw [hat] at h1; cases h1
        · exact h1
      simp only [hi, if_true]
      have hkeep := at?_none_of_purge
        ({ w with i := { w.i with buffer := rest } } : World σ ε) r.wd p
      cases hpu : purge ({ w with i := { w.i with buffer := rest } } : World σ ε) r.wd p with
      | mk res w2 =>
        rw [hpu] at hkeep
        cases res with
        | error f => exact ⟨fun e => by simp, fun k hk => hkeep k hk⟩
        | ok u =>
          have hrest2 : ∀ r' ∈ rest, skipped_record w2.i.by_watches r' := by
            intro r' hr'
            rcases hrest r' hr' with h1 | h1
            · exact Or.inl (hkeep _ h1)
            · exact Or.inr h1
          obtain ⟨i1, i2⟩ := ih w2 hrest2
          exact ⟨i1, fun k hk => i2 k (hkeep k hk)⟩

theorem readEvent_event {σ ε : Type} (reads : List ReadResult) :
    ∀ (w : World σ ε) (e : InotifyEvent) (w' : World σ ε) (reads' : List ReadResult),
      readEvent w reads = (.ok e, w', reads') →
      hasFlag e.event_mask IN_IGNORED = false ∧
      UMap.at? w'.i.by_watches e.watch = some e.path_of_watch ∧
      ∃ r ∈ w.i.buffer ++ all_records reads, decoded_from e r := by
  induction reads with
  | nil =>
    intro w e w' reads' h
    rw [readEvent] at h
    split at h
    · simp at h
    · rename_i e0 w0 heq
      simp only [Prod.mk.injEq, Except.ok.injEq] at h
      obtain ⟨h1, h2, r, hr, hd⟩ := drainBuffer_event _ _ _ _ heq
      rw [← h.1, ← h.2.1]
      exact ⟨h1, h2, r, List.mem_append_left _ hr, hd⟩
    · simp at h
  | cons next later ih =>
    intro w e w' reads' h
    rw [readEvent] at h
    split at h
    · simp at h
    · rename_i e0 w0 heq
      simp only [Prod.mk.injEq, Except.ok.injEq] at h
      obtain ⟨h1, h2, r, hr, hd⟩ := drainBuffer_event _ _ _ _ heq
      rw [← h.1, ← h.2.1]
      exact ⟨h1, h2, r, List.mem_append_left _ hr, hd⟩
    · split at h
      · simp at h
      · simp at h
      · rename_i r rs
        obtain ⟨h1, h2, r', hr', hd⟩ := ih _ e w' reads' h
        refine ⟨h1, h2, r', ?_, hd⟩
        simp only [all_records]
        exact List.mem_append_right _ (by simpa using hr')

theorem readEvent_skipped {σ ε : Type} (reads : List ReadResult) :
    ∀ (w : World σ ε), (∀ r ∈ w.i.buffer ++ all_records reads, skipped_record w.i.by_watches r) →
      ∀ e, (readEvent w reads).1 ≠ .ok e := by
  induction reads with
  | nil =>
    intro w hs e
    have hd := (drainBuffer_skipped w.i.buffer w
      (fun r hr => hs r (List.mem_append_left _ hr))).1
    rw [readEvent]
    split
    · simp
    · rename_i e0 w0 heq
      exact absurd (by rw [heq]) (hd e0)
    · simp
  | cons next later ih =>
    intro w hs e
    have hd := drainBuffer_skipped w.i.buffer w (fun r hr => hs r (List.mem_append_left _ hr))
    rw [readEvent]
    split
    · simp
    · rename_i e0 w0 heq
      exact absurd (by rw [heq]) (hd.1 e0)
    · rename_i w0 heq
      split
      · simp
      · simp
      · rename_i r rs
        have hmono : ∀ k, UMap.at? w.i.by_watches k = none → UMap.at? w0.i.by_watches k = none := by
          intro k hk
          have := hd.2 k hk
          rw [heq] at this
          exact this
        apply ih
        intro r' hr'
        have hmem : r' ∈ w.i.buffer ++ all_records (ReadResult.records (r :: rs) :: later) := by
          simp only [all_records]
          exact List.mem_append_right _ (by simpa using hr')
        rcases hs r' hmem with h1 | h1
        · exact Or.inl (hmono _ h1)
        · exact Or.inr h1

/-- C8. Whatever the registry and the stream of records: an event returned by
`readEvent` has no `IN_IGNORED` in its mask, its handle is registered in
`by_watches` at the return, its `path_of_watch` is `by_watches[handle]`, and it is
decoded from a record of the stream that is neither unknown nor `IGNORED` there.
A stream made only of records for unknown handles and of `IGNORED` records is
consumed without any event being returned. -/
theorem readEvent_returns_only_live_events {σ ε : Type} (w : World σ ε) (reads : List ReadResult) :
    (∀ (e : InotifyEvent) (w' : World σ ε) (reads' : List ReadResult),
      readEvent w reads = (.ok e, w', reads') →
      hasFlag e.event_mask IN_IGNORED = false ∧
      UMap.at? w'.i.by_watches e.watch = some e.path_of_watch ∧
      ∃ r ∈ w.i.buffer ++ all_records reads,
        decoded_from e r ∧ ¬ skipped_record w'.i.by_watches r) ∧
    ((∀ r ∈ w.i.buffer ++ all_records reads, skipped_record w.i.by_watches r) →
      ∀ e, (readEvent w reads).1 ≠ .ok e) := by
  refine ⟨?_, readEvent_skipped reads w⟩
  intro e w' reads' h
  obtain ⟨h1, h2, r, hr, hd⟩ := readEvent_event reads w e w' reads' h
  refine ⟨h1, h2, r, hr, hd, ?_⟩
  rintro (h3 | h3)
  · rw [← hd.1, h2] at h3
    cases h3
  · rw [← hd.2.1, h1] at h3
    cases h3

/-- C8 at a concrete stream: an unknown watch and the drop of watch 5 are passed
over, the modification under watch 6 is returned with its registry path; the
stream cut after the first read returns nothing. -/
theorem readEvent_returns_only_live_events_witness :
    (UMap.at? (readEvent counting_listener_world counting_reads).2.1.i.by_watches 6
        = some "/root/b/pids.events" ∧
      UMap.at? (readEvent counting_listener_world counting_reads).2.1.i.by_watches 5 = none) ∧
    ∀ e, (readEvent counting_listener_world (counting_reads.take 1)).1 ≠ .ok e := by
  have h := readEvent_returns_only_live_events counting_listener_world counting_reads
  have h' := readEvent_returns_only_live_events counting_listener_world (counting_reads.take 1)
  refine ⟨⟨(h.1 (modify_event 6 "/root/b/pids.events") _ _ rfl).2.1, by decide⟩, h'.2 ?_⟩
  intro r hr
  have hr' : r = { wd := 9, mask := IN_MODIFY, cookie := 0, len := 0, name := "" } ∨
      r = ignored_record 5 := by
    simpa [counting_listener_world, counting_reads, all_records] using hr
  rcases hr' with rfl | rfl
  · exact Or.inl (by decide)
  · exact Or.inr (by decide)

/-! ## The window map follows the registry -/

theorem UMap.at?_none_of_insert {κ ν : Type} [DecidableEq κ] {m : UMap κ ν} {k h : κ} {v : ν}
    (hn : UMap.at? (UMap.insert m k v) h = none) : UMap.at? m h = none := by
  unfold UMap.insert at hn
  split at hn
  · exact hn
  · by_cases hk : k = h
    · simp [UMap.at?, hk] at hn
    · simpa [UMap.at?, hk] using hn

theorem Grows.refl {σ ε : Type} (w : World σ ε) : Grows w w :=
  ⟨rfl, rfl, id, fun _ h => h⟩

theorem Grows.trans {σ ε : Type} {w1 w2 w3 : World σ ε} (h12 : Grows w1 w2) (h23 : Grows w2 w3) :
    Grows w1 w3 :=
  ⟨h23.1.trans h12.1, h23.2.1.trans h12.2.1, fun h => h23.2.2.1 (h12.2.2.1 h),
    fun h hn => h12.2.2.2 h (h23.2.2.2 h hn)⟩

theorem addWatch_grows {σ ε : Type} (w : World σ ε) (path : String) (rel : Int)
    (k : String → Int × Int) : Grows w (addWatch w path rel k).2 := by
  unfold addWatch
  simp only
  split
  · exact Grows.refl w
  · split
    · exact Grows.refl w
    · exact ⟨rfl, rfl, fun h => UMap.nodup_keys_insert _ _ h, fun h hn => UMap.at?_none_of_insert hn⟩

theorem walkEntries_grows {σ ε : Type} (env : Env)
    (recur : World σ ε → String → Except (Failure ε) Unit × World σ ε)
    (hrec : ∀ w p, Grows w (recur w p).2) (path leaf : String) (excludes : List String)
    (entries : List DirEntry) :
    ∀ w : World σ ε, Grows w (walkEntries env recur path leaf excludes w entries).2 := by
  induction entries with
  | nil => intro w; exact Grows.refl w
  | cons d rest ih =>
    intro w
    rw [walkEntries]
    have hbody : ∀ (b : LoopExit ε × World σ ε), Grows w b.2 →
        Grows w (match b with
          | (.next, w') => walkEntries env recur path leaf excludes w' rest
          | (.ret, w') => (.ok (), w')
          | (.throw (.inotifyError e), w') =>
            if e ≠ ENOENT then (.error (.inotifyError e), w')
            else walkEntries env recur path leaf excludes w' rest
          | (.throw f, w') => (.error f, w')).2 := by
      intro b hb
      obtain ⟨x, w'⟩ := b
      cases x with
      | next => exact hb.trans (ih w')
      | ret => exact hb
      | throw f =>
        cases f with
        | inotifyError e =>
          simp only
          split
          · exact hb
          · exact hb.trans (ih w')
        | _ => exact hb
    apply hbody
    split
    · have := hrec w (path_append path (path_append path d.name))
      split <;> rename_i heq <;> rw [heq] at this <;> exact this
    · split
      · split
        · exact Grows.refl w
        · exact Grows.refl w
        · have := addWatch_grows w (path_append path d.name) (-1) env.inotify_add_watch
          split <;> rename_i heq <;> rw [heq] at this <;> exact this
      · exact Grows.refl w

theorem addAllRecursively_grows {σ ε : Type} (env : Env) (fuel : Nat) :
    ∀ (w : World σ ε) (path leaf : String) (excludes : List String),
      Grows w (addAllRecursively env fuel w path leaf excludes).2 := by
  induction fuel with
  | zero => intro w path leaf excludes; exact Grows.refl w
  | succ fuel ih =>
    intro w path leaf excludes
    rw [addAllRecursively]
    split
    · exact Grows.refl w
    · exact Grows.refl w
    · have hadd := addWatch_grows w path (-1) env.inotify_add_watch
      split
      · rename_i heq; rw [heq] at hadd; exact hadd
      · rename_i w1 heq
        rw [heq] at hadd
        split
        · exact hadd
        · exact hadd.trans (walkEntries_grows env _ (fun w' p => ih w' p leaf excludes) _ _ _ _ w1)

theorem catch_enoent_world {σ ε : Type} (r : Except (Failure ε) Unit × World σ ε) :
    (catch_enoent r).2 = r.2 := by
  unfold catch_enoent
  split
  · split <;> rfl
  · rfl

theorem WindowsLive.of_grows {ε : Type} {w w' : World PidEvents ε} (h : WindowsLive w)
    (g : Grows w w') : WindowsLive w' := by
  refine ⟨?_, g.2.2.1 h.2.1, fun k hk => ?_⟩
  · rw [g.1]; exact h.1
  · rw [g.1]; exact h.2.2 k (g.2.2.2 k hk)

theorem nodup_keys_modify_branch (a : Args) (now : Int) (watch : Int) (m : PidEvents)
    (h : (UMap.keys m).Nodup) : (UMap.keys (modify_branch a now watch m).1).Nodup := by
  unfold modify_branch
  split
  · simp only
    split_ifs <;> simp only [UMap.keys_assign] <;> exact h
  · exact UMap.nodup_keys_insert _ _ h

theorem deal_with_event_live {ε : Type} (env : Env) (fuel : Nat) (a : Args) (e : InotifyEvent)
    (leaf : String) (w : World PidEvents ε) (hl : WindowsLive w)
    (hreg : UMap.at? w.i.by_watches e.watch ≠ none) :
    WindowsLive (deal_with_event env fuel a e leaf w).world ∧
    (deal_with_event env fuel a e leaf w).world.i.removal_listener = w.i.removal_listener := by
  unfold deal_with_event
  split
  · simp only [catch_enoent_world]
    have hg : Grows w
        (if hasFlag e.event_mask IN_ISDIR = true then
          match e.path with
          | none => ((.error .bad_optional_access : Except (Failure ε) Unit), w)
          | some name => addAllRecursively env fuel w (e.path_of_watch ++ "/" ++ name) leaf []
        else
          match e.path with
          | none => (.error .bail, w)
          | some name =>
            if name = leaf then
              match addWatch w name e.watch env.inotify_add_watch with
              | (.ok _, w') => (.ok (), w')
              | (.error f, w') => (.error f, w')
            else (.ok (), w)).2 := by
      split
      · split
        · exact Grows.refl w
        · exact addAllRecursively_grows env fuel w _ _ _
      · split
        · exact Grows.refl w
        · split
          · rename_i name _ _
            have := addWatch_grows w name e.watch env.inotify_add_watch
            split <;> rename_i heq <;> rw [heq] at this <;> exact this
          · exact Grows.refl w
    exact ⟨hl.of_grows hg, hg.2.1⟩
  · split
    · refine ⟨⟨nodup_keys_modify_branch _ _ _ _ hl.1, hl.2.1, fun k hk => ?_⟩, rfl⟩
      have hne : k ≠ e.watch := by
        rintro rfl
        exact hreg hk
      simp only
      rw [modify_branch_other _ _ _ _ _ hne]
      exact hl.2.2 k hk
    · exact ⟨hl, rfl⟩

theorem main_listener_total {ε : Type} :
    [main_listener (ε := ε)] = [fun wd _ pid_events => UMap.erase pid_events wd].map total_listener :=
  rfl

theorem purge_live {ε : Type} (w : World PidEvents ε) (h : Int) (p : String)
    (hls : w.i.removal_listener = [main_listener]) (hl : WindowsLive w) :
    (purge w h p).1 = .ok () ∧ WindowsLive (purge w h p).2 ∧
    (purge w h p).2.i.removal_listener = [main_listener] ∧
    UMap.at? (purge w h p).2.user h = none := by
  rw [purge_total w [fun wd _ pid_events => UMap.erase pid_events wd] h p (hls.trans main_listener_total)]
  refine ⟨rfl, ⟨?_, ?_, fun k hk => ?_⟩, hls, ?_⟩
  · exact UMap.nodup_keys_erase _ hl.1
  · exact UMap.nodup_keys_erase _ hl.2.1
  · simp only [run_listeners, List.foldl_cons, List.foldl_nil] at hk ⊢
    by_cases hkh : k = h
    · subst hkh; exact UMap.at?_erase_self _ _
    · rw [UMap.at?_erase_of_ne hkh] at hk ⊢
      exact hl.2.2 k hk
  · simp only [run_listeners, List.foldl_cons, List.foldl_nil]
    exact UMap.at?_erase_self _ _

theorem drainBuffer_live {ε : Type} (recs : List inotify_event) :
    ∀ (w : World PidEvents ε), w.i.removal_listener = [main_listener] → WindowsLive w →
      WindowsLive (drainBuffer w recs).2 ∧
      (drainBuffer w recs).2.i.removal_listener = [main_listener] := by
  induction recs with
  | nil => intro w hls hl; exact ⟨hl, hls⟩
  | cons r rest ih =>
    intro w hls hl
    have hl1 : WindowsLive ({ w with i := { w.i with buffer := rest } } : World PidEvents ε) := hl
    rw [drainBuffer]
    simp only
    split
    · exact ih _ hls hl1
    · rename_i path _
      split
      · have hp := purge_live ({ w with i := { w.i with buffer := rest } } : World PidEvents ε)
          r.wd path hls hl1
        split
        · rename_i heq
          rw [heq] at hp
          exact ⟨hp.2.1, hp.2.2.1⟩
        · rename_i heq
          rw [heq] at hp
          exact ih _ hp.2.2.1 hp.2.1
      · exact ⟨hl1, hls⟩

theorem readEvent_live {ε : Type} (reads : List ReadResult) :
    ∀ (w : World PidEvents ε), w.i.removal_listener = [main_listener] → WindowsLive w →
      WindowsLive (readEvent w reads).2.1 ∧
      (readEvent w reads).2.1.i.removal_listener = [main_listener] := by
  induction reads with
  | nil =>
    intro w hls hl
    have hd := drainBuffer_live w.i.buffer w hls hl
    rw [readEvent]
    split <;> rename_i heq <;> rw [heq] at hd <;> exact hd
  | cons next later ih =>
    intro w hls hl
    have hd := drainBuffer_live w.i.buffer w hls hl
    rw [readEvent]
    split
    · rename_i heq; rw [heq] at hd; exact hd
    · rename_i heq; rw [heq] at hd; exact hd
    · rename_i w0 heq
      rw [heq] at hd
      split
      · exact hd
      · exact hd
      · exact ih _ hd.2 hd.1

theorem main_turn_inv {ε : Type} (a : Args) (s : MainState ε) (t : Turn) (h : MainInv s) :
    MainInv (main_turn a s t) := by
  unfold main_turn
  split
  · exact h
  · rename_i hstop
    have hls : s.world.i.removal_listener = [main_listener] := by
      rcases h.2 with h1 | h1
      · exact h1
      · exact absurd hstop h1.2.2
    have hr := readEvent_live s.reads s.world hls h.1
    split
    · rename_i heq
      rw [heq] at hr
      exact ⟨hr.1, Or.inl hr.2⟩
    · rename_i e w reads heq
      rw [heq] at hr
      have hreg : UMap.at? w.i.by_watches e.watch ≠ none := by
        rw [(readEvent_event s.reads s.world e w reads heq).2.1]
        exact Option.some_ne_none _
      have hd := deal_with_event_live t.env t.fuel a e filename_to_listen_to w hr.1 hreg
      exact ⟨hd.1, Or.inl (hd.2.trans hr.2)⟩

theorem main_startup_inv {ε : Type} (a : Args) (excludes : List String) (env : Env) (fuel : Nat)
    (reads : List ReadResult) : MainInv (main_startup (ε := ε) a excludes env fuel reads) := by
  have hinit : WindowsLive (World.init (ε := ε) ([] : PidEvents)) :=
    ⟨List.nodup_nil, List.nodup_nil, fun _ _ => rfl⟩
  have hg := addAllRecursively_grows (σ := PidEvents) (ε := ε) env fuel (World.init [])
    (a.cgroup_path ++ a.slice_path) filename_to_listen_to excludes
  have hl := hinit.of_grows hg
  unfold main_startup
  simp only
  split
  · exact ⟨hl, Or.inr ⟨hg.2.1, hg.1, by simp⟩⟩
  · refine ⟨hl, Or.inl ?_⟩
    have hnil := hg.2.1
    simp only [World.init] at hnil
    simp only [addFileRemovalListener]
    show (addAllRecursively env fuel (World.init ([] : PidEvents)) (a.cgroup_path ++ a.slice_path)
      filename_to_listen_to excludes).2.i.removal_listener ++ [main_listener] = [main_listener]
    simp only [World.init, hnil, List.nil_append]

theorem main_inv {ε : Type} (a : Args) (turns : List Turn) :
    ∀ s : MainState ε, MainInv s → MainInv (turns.foldl (main_turn a) s) := by
  induction turns with
  | nil => intro s h; exact h
  | cons t turns ih => intro s h; exact ih _ (main_turn_inv a s t h)

theorem size_le_of_live {ε : Type} {w : World PidEvents ε} (h : WindowsLive w) :
    UMap.size w.user ≤ UMap.size w.i.by_watches := by
  have hsub : UMap.keys w.user ⊆ UMap.keys w.i.by_watches := by
    intro k hk
    rw [UMap.mem_keys_iff] at hk ⊢
    cases hbw : UMap.at? w.i.by_watches k with
    | none => rw [h.2.2 k hbw] at hk; cases hk
    | some _ => rfl
  have := (List.subperm_of_subset h.1 hsub).length_le
  simpa [UMap.keys, UMap.size] using this

theorem removeWatch_after_inv {ε : Type} (s : MainState ε) (h : MainInv s) (watch : Int)
    (errno : Int) : UMap.at? (removeWatch_watch s.world watch 0 errno).2.user watch = none := by
  unfold removeWatch_watch
  simp only [ne_eq, not_true_eq_false, if_false]
  cases hbw : UMap.at? s.world.i.by_watches watch with
  | none => exact h.1.2.2 watch hbw
  | some p =>
    simp only
    rcases h.2 with h1 | h1
    · exact (purge_live s.world watch p h1 h.1).2.2.2
    · have hp := purge_total s.world [] watch p h1.1
      rw [hp]
      simp [run_listeners, h1.2.1, UMap.at?]

theorem removeWatch_path_after_inv {ε : Type} (s : MainState ε) (h : MainInv s) (path : String)
    (watch : Int) (errno : Int) (hp : UMap.at? s.world.i.by_paths path = some watch) :
    UMap.at? (removeWatch_path s.world path 0 errno).2.user watch = none := by
  unfold removeWatch_path
  simp only [hp, ne_eq, not_true_eq_false, if_false]
  rcases h.2 with h1 | h1
  · exact (purge_live s.world watch path h1 h.1).2.2.2
  · have hpu := purge_total s.world [] watch path h1.1
    rw [hpu]
    simp [run_listeners, h1.2.1, UMap.at?]

/-- C9. In every state that `main` reaches (first walk, registration of the
listener, then any number of turns of `readEvent` and `deal_with_event`, whatever
the kernel and the file system answer): every handle with a `WindowEntry` in
`pid_events` is registered in `by_watches`, so a handle that is not registered has
no entry; `pid_events` has at most as many entries as `by_watches`; and an explicit
`removeWatch`, by handle or by path, leaves no entry for the handle it removes. -/
theorem window_entries_are_live_watches {ε : Type} (a : Args) (env : Env) (fuel : Nat)
    (reads : List ReadResult) (turns : List Turn) :
    (∀ h, UMap.contains (main (ε := ε) a env fuel reads turns).world.user h = true →
      UMap.contains (main (ε := ε) a env fuel reads turns).world.i.by_watches h = true) ∧
    (∀ h, UMap.at? (main (ε := ε) a env fuel reads turns).world.i.by_watches h = none →
      UMap.at? (main (ε := ε) a env fuel reads turns).world.user h = none) ∧
    UMap.size (main (ε := ε) a env fuel reads turns).world.user ≤
      UMap.size (main (ε := ε) a env fuel reads turns).world.i.by_watches ∧
    (∀ watch errno, UMap.at?
      (removeWatch_watch (main (ε := ε) a env fuel reads turns).world watch 0 errno).2.user watch
        = none) ∧
    (∀ path watch errno,
      UMap.at? (main (ε := ε) a env fuel reads turns).world.i.by_paths path = some watch →
      UMap.at?
        (removeWatch_path (main (ε := ε) a env fuel reads turns).world path 0 errno).2.user watch
          = none) := by
  have hinv : MainInv (main (ε := ε) a env fuel reads turns) :=
    main_inv a turns _ (main_startup_inv a (main_excludes a) env fuel reads)
  refine ⟨fun h hc => ?_, hinv.1.2.2, size_le_of_live hinv.1,
    fun watch errno => removeWatch_after_inv _ hinv watch errno,
    fun path watch errno hp => removeWatch_path_after_inv _ hinv path watch errno hp⟩
  cases hbw : UMap.at? (main (ε := ε) a env fuel reads turns).world.i.by_watches h with
  | none =>
    have := hinv.1.2.2 h hbw
    simp [UMap.contains, this] at hc
  | some p => simp [UMap.contains, hbw]

set_option maxRecDepth 100000 in
/-- C9 on a run of `main`: a cgroup with two failed forks has a window entry after
two turns; once its leaf watch is dropped by the kernel, in the third turn, the
entry is gone and the window map is no larger than the registry. -/
theorem window_entries_are_live_watches_witness :
    UMap.at? (main (ε := Unit) default_args one_cgroup_env 3 one_cgroup_reads
      (List.replicate 2 ⟨one_cgroup_env, 3⟩)).world.user 3 = some (0, 2) ∧
    UMap.at? (main (ε := Unit) default_args one_cgroup_env 3 one_cgroup_reads
      (List.replicate 3 ⟨one_cgroup_env, 3⟩)).world.user 3 = none ∧
    UMap.size (main (ε := Unit) default_args one_cgroup_env 3 one_cgroup_reads
      (List.replicate 3 ⟨one_cgroup_env, 3⟩)).world.user ≤
    UMap.size (main (ε := Unit) default_args one_cgroup_env 3 one_cgroup_reads
      (List.replicate 3 ⟨one_cgroup_env, 3⟩)).world.i.by_watches :=
  ⟨by decide,
   (window_entries_are_live_watches (ε := Unit) default_args one_cgroup_env 3 one_cgroup_reads
      (List.replicate 3 ⟨one_cgroup_env, 3⟩)).2.1 3 (by decide),
   (window_entries_are_live_watches (ε := Unit) default_args one_cgroup_env 3 one_cgroup_reads
      (List.replicate 3 ⟨one_cgroup_env, 3⟩)).2.2.1⟩

/-! ## The rate engine over a sequence of events -/

theorem window_counts_head (T : Int) (ts : List Int) :
    ∀ (s : Int) (m : Nat), ∃ first rest, window_counts T s m ts = first :: rest ∧ m ≤ first := by
  induction ts with
  | nil => intro s m; exact ⟨m, [], rfl, le_refl _⟩
  | cons t ts ih =>
    intro s m
    rw [window_counts]
    split
    · exact ⟨m, _, rfl, le_refl _⟩
    · obtain ⟨first, rest, h1, h2⟩ := ih s (m + 1)
      exact ⟨first, rest, h1, by omega⟩

theorem entry_run_kill_iff (a : Args) (T : Int) (hK : 1 ≤ a.event_thresh)
    (hK64 : a.event_thresh < 2 ^ 64) (ts : List Int) :
    ∀ (s : Int) (n m c0 : Nat), n = m + c0 → c0 ≤ 1 → (m = 0 ∨ m + c0 < a.event_thresh) →
      (∀ t ∈ ts, window_expired a.window_seconds s t = decide (s < t - T)) →
      (∀ s' ∈ ts, ∀ t ∈ ts, window_expired a.window_seconds s' t = decide (s' < t - T)) →
      (((entry_run a (some (s, n)) ts).map Prod.fst).any (fun x => decide (0 < x)) = true ↔
        ∃ first rest, window_counts T s m ts = first :: rest ∧
          ((1 ≤ first ∧ a.event_thresh ≤ first + c0) ∨ ∃ x ∈ rest, a.event_thresh ≤ x)) := by
  induction ts with
  | nil =>
    intro s n m c0 hn hc hinv _ _
    simp only [entry_run, List.map_nil, List.any_nil, Bool.false_eq_true, window_counts, false_iff]
    rintro ⟨first, rest, heq, h⟩
    simp only [List.cons.injEq] at heq
    obtain ⟨rfl, rfl⟩ := heq
    rcases h with h | ⟨x, hx, _⟩
    · omega
    · cases hx
  | cons t ts ih =>
    intro s n m c0 hn hc hinv hs hall
    have hlt : n + 1 < 2 ^ 64 := by omega
    have hst := hs t (List.mem_cons_self _ _)
    have hs' : ∀ t' ∈ ts, window_expired a.window_seconds s t' = decide (s < t' - T) :=
      fun t' ht' => hs t' (List.mem_cons_of_mem _ ht')
    have ht' : ∀ t' ∈ ts, window_expired a.window_seconds t t' = decide (t < t' - T) :=
      fun t' ht' => hall t (List.mem_cons_self _ _) t' (List.mem_cons_of_mem _ ht')
    have hall' : ∀ s' ∈ ts, ∀ t' ∈ ts,
        window_expired a.window_seconds s' t' = decide (s' < t' - T) :=
      fun s' hs'' t' ht'' =>
        hall s' (List.mem_cons_of_mem _ hs'') t' (List.mem_cons_of_mem _ ht'')
    rw [entry_run, window_counts]
    simp only [entry_step, Nat.mod_eq_of_lt hlt, hst, decide_eq_true_eq]
    by_cases hwin : s < t - T
    · simp only [hwin, if_true, List.map_cons, List.any_cons, Bool.false_eq_true, if_false,
        lt_self_iff_false, decide_False, Bool.false_or]
      rw [ih t 0 0 0 rfl (by omega) (Or.inl rfl) ht' hall']
      constructor
      · rintro ⟨first, rest, heq, h⟩
        refine ⟨m, first :: rest, by rw [heq], Or.inr ?_⟩
        rcases h with h | ⟨x, hx, hxK⟩
        · exact ⟨first, List.mem_cons_self _ _, by omega⟩
        · exact ⟨x, List.mem_cons_of_mem _ hx, hxK⟩
      · rintro ⟨first, rest, heq, h⟩
        simp only [List.cons.injEq] at heq
        obtain ⟨rfl, rfl⟩ := heq
        obtain ⟨f2, r2, heq2, _⟩ := window_counts_head T ts t 0
        refine ⟨f2, r2, heq2, ?_⟩
        rcases h with h | ⟨x, hx, hxK⟩
        · omega
        · rw [heq2] at hx
          rcases List.mem_cons.1 hx with rfl | hx'
          · exact Or.inl ⟨by omega, by omega⟩
          · exact Or.inr ⟨x, hx', hxK⟩
    · simp only [hwin, if_false]
      by_cases hkill : n + 1 ≥ a.event_thresh
      · simp only [hkill, if_true, List.map_cons, List.any_cons, Nat.lt_one_iff, zero_lt_one,
          decide_True, Bool.true_or, true_iff]
        obtain ⟨first, rest, heq, hle⟩ := window_counts_head T ts s (m + 1)
        exact ⟨first, rest, heq, Or.inl ⟨by omega, by omega⟩⟩
      · simp only [hkill, if_false, List.map_cons, List.any_cons, Bool.false_eq_true,
          lt_self_iff_false, decide_False, Bool.false_or]
        exact ih s (n + 1) (m + 1) c0 (by omega) hc (Or.inr (by omega)) hs' hall'

set_option maxRecDepth 100000 in
/-- C2, as stated, fails in both directions (window 10 s, threshold 3, one leaf
handle without entry). Events at `t = 0, 1, 2` s: a kill is issued, at the third
event, although no event is followed by three events within 10 s of it. Events at
`t = 0, 9, 11, 12, 13` s: the event at 9 is followed by three events within 10 s of
it, and no kill is issued, because the event at 11 opens a new window. -/
theorem kill_is_not_threshold_after_opener :
    (kill_issued (ε := Unit) scenario_args (modify_event 7 "/root/c/pids.events")
        filename_to_listen_to (World.init []) ([0, 1, 2].map env_at_second) = true ∧
      counted_after_opener (10 * ticks_per_second) 3
        ([0, 1, 2].map (fun n => n * ticks_per_second)) = false) ∧
    (kill_issued (ε := Unit) scenario_args (modify_event 7 "/root/c/pids.events")
        filename_to_listen_to (World.init []) ([0, 9, 11, 12, 13].map env_at_second) = false ∧
      counted_after_opener (10 * ticks_per_second) 3
        ([0, 9, 11, 12, 13].map (fun n => n * ticks_per_second)) = true) := by
  refine ⟨⟨by decide, by decide⟩, by decide, by decide⟩

/-- C2, amended. For every `event_threshold ≥ 1` (an `unsigned`), every window and
every finite sequence of `MODIFY` events on one leaf handle that starts with no
`WindowEntry`, on whose timestamps the `float` comparison of the code has the value
of the exact comparison: `deal_with_event` issues a kill during the sequence if and
only if one of the windows the engine goes through reaches the threshold: the
first window, opened by the first event, whose opening event counts, holds
`event_threshold` events with at least one after the opening event; or a later
window holds `event_threshold` events after its opening event. A window ends at
the first event later than `window_seconds` after its start; that event opens the
next window. -/
theorem kill_iff_window_reaches_threshold {ε : Type} (a : Args) (e : InotifyEvent) (leaf : String)
    (w : World PidEvents ε) (envs : List Env)
    (hc : hasFlag e.event_mask IN_CREATE = false) (hm : hasFlag e.event_mask IN_MODIFY = true)
    (hl : ends_with e.path_of_watch ("/" ++ leaf) = true)
    (hw : UMap.at? w.user e.watch = none)
    (hK : 1 ≤ a.event_thresh) (hK32 : a.event_thresh < 2 ^ 32)
    (hexact : ∀ s ∈ envs.map (fun env => env.now), ∀ t ∈ envs.map (fun env => env.now),
      window_expired a.window_seconds s t = window_expired_exact a.window_seconds s t) :
    kill_issued a e leaf w envs = true ↔
      window_reaches_threshold (window_ns a.window_seconds) a.event_thresh
        (envs.map (fun env => env.now)) := by
  have hall : ∀ s ∈ envs.map (fun env => env.now), ∀ t ∈ envs.map (fun env => env.now),
      window_expired a.window_seconds s t = decide (s < t - window_ns a.window_seconds) :=
    fun s hs t ht => by rw [hexact s hs t ht, window_expired_exact_iff]
  unfold kill_issued kill_counts
  rw [dispatch_all_eq_entry_run a e leaf hc hm hl envs w, hw]
  cases envs with
  | nil => simp [entry_run, window_reaches_threshold]
  | cons env envs =>
    have hK64 : a.event_thresh < 2 ^ 64 := by omega
    simp only [List.map_cons] at hall
    have key := entry_run_kill_iff a (window_ns a.window_seconds) hK hK64
      (envs.map (fun env => env.now)) env.now 1 0 1 rfl (le_refl _) (Or.inl rfl)
      (fun t ht => hall env.now (List.mem_cons_self _ _) t (List.mem_cons_of_mem _ ht))
      (fun s hs t ht => hall s (List.mem_cons_of_mem _ hs) t (List.mem_cons_of_mem _ ht))
    simp only [List.map_cons, entry_run, entry_step, List.any_cons, Bool.false_eq_true, if_false,
      lt_self_iff_false, decide_False, Bool.false_or, window_reaches_threshold]
    rw [key]
    obtain ⟨first, rest, heq, _⟩ :=
      window_counts_head (window_ns a.window_seconds) (envs.map (fun env => env.now)) env.now 0
    rw [heq]
    constructor
    · rintro ⟨f, r, h1, h2⟩
      simp only [List.cons.injEq] at h1
      obtain ⟨rfl, rfl⟩ := h1
      exact h2
    · intro h
      exact ⟨first, rest, rfl, h⟩

set_option maxRecDepth 100000 in
/-- C2 amended, on the scenarios: window 10 s, threshold 3; the events at
`t = 0, 1, 2` s reach the threshold in the first window, the events at
`t = 0, 9, 11, 12, 13` s in no window. -/
theorem kill_iff_window_reaches_threshold_witness :
    window_reaches_threshold (window_ns (float_seconds 10)) 3
      (([0, 1, 2].map env_at_second).map (fun env => env.now)) ∧
    ¬ window_reaches_threshold (window_ns (float_seconds 10)) 3
      (([0, 9, 11, 12, 13].map env_at_second).map (fun env => env.now)) :=
  ⟨(kill_iff_window_reaches_threshold (ε := Unit) scenario_args
      (modify_event 7 "/root/c/pids.events") filename_to_listen_to (World.init [])
      ([0, 1, 2].map env_at_second)
      (by decide) (by decide) (by decide) (by decide) (by decide) (by decide)
      (by decide)).1 (by decide),
   fun h => absurd
    ((kill_iff_window_reaches_threshold (ε := Unit) scenario_args
      (modify_event 7 "/root/c/pids.events") filename_to_listen_to (World.init [])
      ([0, 9, 11, 12, 13].map env_at_second)
      (by decide) (by decide) (by decide) (by decide) (by decide) (by decide)
      (by decide)).2 h) (by decide)⟩

/-! ## Adding a watch again -/

theorem UMap.contains_insert_self {κ ν : Type} [DecidableEq κ] (m : UMap κ ν) (k : κ) (v : ν) :
    UMap.contains (UMap.insert m k v) k = true := by
  unfold UMap.insert
  split
  · assumption
  · simp [UMap.contains, UMap.at?]

theorem UMap.insert_insert_self {κ ν : Type} [DecidableEq κ] (m : UMap κ ν) (k : κ) (v v' : ν) :
    UMap.insert (UMap.insert m k v) k v' = UMap.insert m k v := by
  have h := UMap.contains_insert_self m k v
  generalize UMap.insert m k v = m' at h ⊢
  simp [UMap.insert, h]

theorem UMap.at?_insert_of_some {κ ν : Type} [DecidableEq κ] {m : UMap κ ν} {k k' : κ} (v : ν)
    {x : ν} (h : UMap.at? m k' = some x) : UMap.at? (UMap.insert m k v) k' = some x := by
  unfold UMap.insert
  split
  · exact h
  · rename_i hc
    have hne : k ≠ k' := by
      rintro rfl
      exact hc (by simp [UMap.contains, h])
    simp [UMap.at?, hne, h]

theorem addWatch_of_path {σ ε : Type} (w : World σ ε) (path : String) (rel : Int)
    (k : String → Int × Int) (p : String) (hpath : watched_path w path rel = some p)
    (h0 : 0 ≤ (k p).1) :
    addWatch w path rel k =
      (.ok (k p).1,
       { w with i := { w.i with by_watches := UMap.insert w.i.by_watches (k p).1 p,
                                by_paths := UMap.insert w.i.by_paths p (k p).1 } }) := by
  unfold addWatch
  simp only [watched_path] at hpath
  simp only [hpath, not_lt.2 h0, if_false]

theorem addWatch_twice {σ ε : Type} (w : World σ ε) (path : String) (rel : Int)
    (k : String → Int × Int) :
    addWatch (addWatch w path rel k).2 path rel k = addWatch w path rel k := by
  cases hwp : watched_path w path rel with
  | none =>
    have h1 : addWatch w path rel k = (.error .out_of_range, w) := by
      unfold addWatch
      simp only [watched_path] at hwp
      simp only [hwp]
    rw [h1]
    exact h1
  | some p =>
    by_cases h0 : 0 ≤ (k p).1
    · rw [addWatch_of_path w path rel k p hwp h0]
      have hwp' : watched_path
          ({ w with i := { w.i with by_watches := UMap.insert w.i.by_watches (k p).1 p,
                                    by_paths := UMap.insert w.i.by_paths p (k p).1 } } : World σ ε)
          path rel = some p := by
        simp only [watched_path] at hwp ⊢
        by_cases hrel : rel ≠ -1
        · rw [if_pos hrel] at hwp ⊢
          cases hat : UMap.at? w.i.by_watches rel with
          | none => rw [hat] at hwp; cases hwp
          | some d =>
            rw [UMap.at?_insert_of_some _ hat]
            rw [hat] at hwp
            exact hwp
        · rw [if_neg hrel] at hwp ⊢
          exact hwp
      rw [addWatch_of_path _ path rel k p hwp' h0]
      simp only [UMap.insert_insert_self]
    · have h1 : addWatch w path rel k = (.error (.inotifyError (k p).2), w) := by
        unfold addWatch
        simp only [watched_path] at hwp
        simp only [hwp, not_le.1 h0, if_true]
      rw [h1]
      exact h1

/-- C11. In a registry where path `p` is registered with handle `h`, a further
`addWatch` of `p` (given as such, or relative to a registered watch) that the
kernel answers with the same handle `h` succeeds, returns `h` and leaves
`by_watches`, `by_paths` and the rest of the object exactly as they were. In any
state, a repeated `addWatch` with the same answer of the kernel changes nothing
more than the first one did. -/
theorem addWatch_registered_pair_is_noop {σ ε : Type} (w : World σ ε) (path : String) (rel : Int)
    (k : String → Int × Int) (p : String) (h : Int)
    (hpath : watched_path w path rel = some p)
    (hw : UMap.at? w.i.by_watches h = some p) (hp : UMap.at? w.i.by_paths p = some h)
    (hk : (k p).1 = h) (h0 : 0 ≤ h) :
    addWatch w path rel k = (.ok h, w) ∧
    (addWatch w path rel k).2.i.by_watches = w.i.by_watches ∧
    (addWatch w path rel k).2.i.by_paths = w.i.by_paths ∧
    ∀ (w0 : World σ ε) (path0 : String) (rel0 : Int),
      addWatch (addWatch w0 path0 rel0 k).2 path0 rel0 k = addWatch w0 path0 rel0 k := by
  subst hk
  have key : addWatch w path rel k = (.ok (k p).1, w) := by
    rw [addWatch_of_path w path rel k p hpath h0]
    simp only [UMap.at?_insert_present _ hw, UMap.at?_insert_present _ hp]
  refine ⟨key, ?_, ?_, fun w0 path0 rel0 => addWatch_twice w0 path0 rel0 k⟩
  · rw [key]
  · rw [key]

/-- C11 at a concrete registry: watch 5 is registered for `/root/a`, and adding
`/root/a` again with the kernel answering 5 returns 5 and changes nothing. -/
theorem addWatch_registered_pair_is_noop_witness :
    (addWatch counting_listener_world "/root/a" (-1) (fun _ => (5, 0))).2.i.by_watches =
      [(6, "/root/b/pids.events"), (5, "/root/a")] ∧
    (addWatch counting_listener_world "/root/a" (-1) (fun _ => (5, 0))).2.i.by_paths =
      [("/root/b/pids.events", 6), ("/root/a", 5)] :=
  ⟨(addWatch_registered_pair_is_noop counting_listener_world "/root/a" (-1) (fun _ => (5, 0))
      "/root/a" 5 (by decide) (by decide) (by decide) rfl (by decide)).2.1,
   (addWatch_registered_pair_is_noop counting_listener_world "/root/a" (-1) (fun _ => (5, 0))
      "/root/a" 5 (by decide) (by decide) (by decide) rfl (by decide)).2.2.1⟩

/-! ## `is_inside_dir` -/

theorem mismatch_some_nil_iff (hs : List String) :
    ∀ ls : List String, mismatch hs ls = some [] ↔ hs <+: ls := by
  induction hs with
  | nil => intro ls; simp [mismatch]
  | cons h hs ih =>
    intro ls
    cases ls with
    | nil => simp [mismatch]
    | cons l ls =>
      by_cases hl : h = l
      · subst hl
        simp [mismatch, ih ls, List.cons_prefix_cons]
      · simp [mismatch, hl, List.cons_prefix_cons]

theorem mismatch_none_iff (hs : List String) :
    ∀ ls : List String, mismatch hs ls = none ↔ ∃ x rest, hs = ls ++ x :: rest := by
  induction hs with
  | nil => intro ls; simp [mismatch]
  | cons h hs ih =>
    intro ls
    cases ls with
    | nil => simp [mismatch]
    | cons l ls =>
      by_cases hl : h = l
      · subst hl
        simp [mismatch, ih ls]
      · simp [mismatch, hl]

theorem is_inside_dir_true_iff (higher lower : String) :
    is_inside_dir higher lower = some true ↔
      path_elements (lexically_normal higher) <+: path_elements (lexically_normal lower) := by
  rw [← mismatch_some_nil_iff]
  unfold is_inside_dir
  cases hm : mismatch (path_elements (lexically_normal higher))
      (path_elements (lexically_normal lower)) with
  | none => simp [hm]
  | some rest => cases rest <;> simp [hm]

theorem is_inside_dir_none_iff (higher lower : String) :
    is_inside_dir higher lower = none ↔
      ∃ x rest, path_elements (lexically_normal higher) =
        path_elements (lexically_normal lower) ++ x :: rest := by
  rw [← mismatch_none_iff]
  unfold is_inside_dir
  cases hm : mismatch (path_elements (lexically_normal higher))
      (path_elements (lexically_normal lower)) <;> simp [hm]

/-- C12, evaluated where it fails. `is_inside_dir` answers as the claim says on
`/a/b` against `/a/b`, `/a/b/c` and `/a/bc`. Against `/a`, a proper ancestor of
`/a/b`, `std::mismatch(higher.begin(), higher.end(), lower.begin())` finds `/` and
`a` equal and then reads the element past the end of `lower`: there is no answer
`false`. `main` runs into this in its first call when the slice is given without
a trailing slash, the root `/sys/fs/cgroup/user.slice` being a proper ancestor of
the exclude `/sys/fs/cgroup/user.slice/user-0.slice`. -/
theorem is_inside_dir_reads_past_proper_ancestor :
    is_inside_dir "/a/b" "/a/b" = some true ∧
    is_inside_dir "/a/b" "/a/b/c" = some true ∧
    is_inside_dir "/a/b" "/a/bc" = some false ∧
    path_elements (lexically_normal "/a/b") = path_elements (lexically_normal "/a") ++ ["b"] ∧
    is_inside_dir "/a/b" "/a" = none ∧
    is_inside_dir "/sys/fs/cgroup/user.slice/user-0.slice" "/sys/fs/cgroup/user.slice" = none ∧
    (main (ε := Unit) slice_args one_cgroup_env 3 [] []).stopped = some .undefined := by
  refine ⟨by decide, by decide, by decide, by decide, by decide, by decide, by decide⟩

/-! ## No kill without a full window -/

theorem entry_run_kill_windows (a : Args) (T : Int) (hK64 : a.event_thresh < 2 ^ 64)
    (ts : List Int) :
    ∀ (s : Int) (n : Nat) (acc : List Int),
      n ≤ acc.countP (fun u => decide (s ≤ u)) → (n ≤ 1 ∨ n < a.event_thresh) →
      (∀ u ∈ acc, ∀ t ∈ ts, u ≤ t) → (∀ t ∈ ts, s ≤ t) → ts.Pairwise (· ≤ ·) →
      (∀ t ∈ ts, window_expired a.window_seconds s t = decide (s < t - T)) →
      (∀ s' ∈ ts, ∀ t ∈ ts, window_expired a.window_seconds s' t = decide (s' < t - T)) →
      ∀ tw ∈ kill_windows (ts.zip ((entry_run a (some (s, n)) ts).map Prod.fst)) acc,
        a.event_thresh ≤ tw.2.countP (fun u => decide (tw.1 - T ≤ u ∧ u ≤ tw.1)) := by
  induction ts with
  | nil =>
    intro s n acc _ _ _ _ _ _ _ tw htw
    simp [entry_run, kill_windows] at htw
  | cons t ts ih =>
    intro s n acc hn hb hacc hs hpw hx hall tw htw
    have hlt : n + 1 < 2 ^ 64 := by omega
    have hst : s ≤ t := hs t (List.mem_cons_self _ _)
    have hxt := hx t (List.mem_cons_self _ _)
    have hx' : ∀ t' ∈ ts, window_expired a.window_seconds s t' = decide (s < t' - T) :=
      fun t' ht' => hx t' (List.mem_cons_of_mem _ ht')
    have hxt' : ∀ t' ∈ ts, window_expired a.window_seconds t t' = decide (t < t' - T) :=
      fun t' ht' => hall t (List.mem_cons_self _ _) t' (List.mem_cons_of_mem _ ht')
    have hall' : ∀ s' ∈ ts, ∀ t' ∈ ts,
        window_expired a.window_seconds s' t' = decide (s' < t' - T) :=
      fun s' hs'' t' ht'' =>
        hall s' (List.mem_cons_of_mem _ hs'') t' (List.mem_cons_of_mem _ ht'')
    obtain ⟨hle, hpw'⟩ := List.pairwise_cons.1 hpw
    have hacc' : ∀ u ∈ acc ++ [t], ∀ t' ∈ ts, u ≤ t' := by
      intro u hu t' ht'
      rcases List.mem_append.1 hu with h1 | h1
      · exact hacc u h1 t' (List.mem_cons_of_mem _ ht')
      · rw [List.mem_singleton.1 h1]; exact hle t' ht'
    have hs' : ∀ t' ∈ ts, s ≤ t' := fun t' ht' => hs t' (List.mem_cons_of_mem _ ht')
    have hcount : (acc ++ [t]).countP (fun u => decide (s ≤ u)) =
        acc.countP (fun u => decide (s ≤ u)) + 1 := by
      simp [List.countP_append, List.countP_cons, hst]
    rw [entry_run] at htw
    simp only [entry_step, Nat.mod_eq_of_lt hlt, List.map_cons, List.zip_cons_cons, hxt,
      decide_eq_true_eq] at htw
    by_cases hwin : s < t - T
    · simp only [hwin, if_true, Bool.false_eq_true, if_false, kill_windows,
        lt_self_iff_false] at htw
      exact ih t 0 (acc ++ [t]) (Nat.zero_le _) (Or.inl (Nat.zero_le _)) hacc' hle hpw'
        hxt' hall' tw htw
    · simp only [hwin, if_false] at htw
      by_cases hkill : n + 1 ≥ a.event_thresh
      · simp only [hkill, if_true, kill_windows, zero_lt_one, List.mem_cons] at htw
        rcases htw with rfl | htw
        · have hmono : acc.countP (fun u => decide (s ≤ u)) ≤
              acc.countP (fun u => decide (t - T ≤ u ∧ u ≤ t)) := by
            apply List.countP_mono_left
            intro u hu hsu
            have h1 : s ≤ u := by simpa using hsu
            have h2 : u ≤ t := hacc u hu t (List.mem_cons_self _ _)
            have h3 : t - T ≤ u := by omega
            simp [h2, h3]
          have hself : t - T ≤ t := by omega
          have hW : 0 ≤ T := by omega
          have : (acc ++ [t]).countP (fun u => decide (t - T ≤ u ∧ u ≤ t)) =
              acc.countP (fun u => decide (t - T ≤ u ∧ u ≤ t)) + 1 := by
            simp [List.countP_append, List.countP_cons, hself, hW]
          simp only
          omega
        · exact ih s 0 [] (Nat.zero_le _) (Or.inl (Nat.zero_le _))
            (fun u hu => by cases hu) hs' hpw' hx' hall' tw htw
      · simp only [hkill, if_false, Bool.false_eq_true, kill_windows, lt_self_iff_false] at htw
        exact ih s (n + 1) (acc ++ [t]) (by omega) (Or.inr (by omega)) hacc' hs' hpw'
          hx' hall' tw htw

theorem kill_windows_times (l : List (Int × Nat)) :
    ∀ acc : List Int, (kill_windows l acc).map Prod.fst =
      (l.filter (fun x => decide (0 < x.2))).map Prod.fst := by
  induction l with
  | nil => intro acc; rfl
  | cons x rest ih =>
    intro acc
    obtain ⟨t, kills⟩ := x
    by_cases hk : 0 < kills
    · simp [kill_windows, hk, ih]
    · simp [kill_windows, hk, ih]

theorem dispatch_all_length {ε : Type} (a : Args) (e : InotifyEvent) (leaf : String)
    (envs : List Env) :
    ∀ w : World PidEvents ε, (dispatch_all a e leaf w envs).2.length = envs.length := by
  induction envs with
  | nil => intro w; rfl
  | cons env envs ih => intro w; simp [dispatch_all, ih]

/-- Where the `float` comparison of the code has the value of the exact one on the
timestamps of a run: for every `event_threshold` (an `unsigned`), every window and
every sequence of `MODIFY` events with non-decreasing timestamps on one leaf handle
that has no window entry before the first of them, whenever `deal_with_event`
issues a kill at an event of time `t`, at least `event_threshold` events of the
sequence that come after the previous kill, the killing event included, have their
timestamps in the window that ends at `t`. The kills so accounted for are all the
kills of the run, one list of events per killing event. -/
theorem kill_has_threshold_events_in_window_of_exact {ε : Type} (a : Args) (e : InotifyEvent)
    (leaf : String) (w : World PidEvents ε) (envs : List Env)
    (hc : hasFlag e.event_mask IN_CREATE = false) (hm : hasFlag e.event_mask IN_MODIFY = true)
    (hl : ends_with e.path_of_watch ("/" ++ leaf) = true)
    (hw : UMap.at? w.user e.watch = none) (hK32 : a.event_thresh < 2 ^ 32)
    (hsorted : (envs.map (fun env => env.now)).Pairwise (· ≤ ·))
    (hexact : ∀ s ∈ envs.map (fun env => env.now), ∀ t ∈ envs.map (fun env => env.now),
      window_expired a.window_seconds s t = window_expired_exact a.window_seconds s t) :
    (∀ tw ∈ kill_windows ((envs.map (fun env => env.now)).zip (kill_counts a e leaf w envs)) [],
      a.event_thresh ≤
        (tw.2.filter
          (fun u => decide (tw.1 - window_ns a.window_seconds ≤ u ∧ u ≤ tw.1))).length) ∧
    (kill_windows ((envs.map (fun env => env.now)).zip (kill_counts a e leaf w envs)) []).map
        Prod.fst =
      (((envs.map (fun env => env.now)).zip (kill_counts a e leaf w envs)).filter
        (fun x => decide (0 < x.2))).map Prod.fst ∧
    (kill_counts a e leaf w envs).length = envs.length := by
  have hall : ∀ s ∈ envs.map (fun env => env.now), ∀ t ∈ envs.map (fun env => env.now),
      window_expired a.window_seconds s t = decide (s < t - window_ns a.window_seconds) :=
    fun s hs t ht => by rw [hexact s hs t ht, window_expired_exact_iff]
  refine ⟨?_, kill_windows_times _ _, by simp [kill_counts, dispatch_all_length]⟩
  intro tw htw
  rw [← List.countP_eq_length_filter]
  unfold kill_counts at htw
  rw [dispatch_all_eq_entry_run a e leaf hc hm hl envs w, hw] at htw
  cases envs with
  | nil => simp [entry_run, kill_windows] at htw
  | cons env envs =>
    have hK64 : a.event_thresh < 2 ^ 64 := by omega
    simp only [List.map_cons] at hsorted hall
    obtain ⟨hle, hpw⟩ := List.pairwise_cons.1 hsorted
    change tw ∈ kill_windows ((envs.map (fun env => env.now)).zip
      ((entry_run a (some (env.now, 1)) (envs.map (fun env => env.now))).map Prod.fst))
      [env.now] at htw
    exact entry_run_kill_windows a (window_ns a.window_seconds) hK64
      (envs.map (fun env => env.now)) env.now 1 [env.now]
      (by simp) (Or.inl (le_refl _))
      (fun u hu t ht => by rw [List.mem_singleton.1 hu]; exact hle t ht) hle hpw
      (fun t ht => hall env.now (List.mem_cons_self _ _) t (List.mem_cons_of_mem _ ht))
      (fun s hs t ht => hall s (List.mem_cons_of_mem _ hs) t (List.mem_cons_of_mem _ ht))
      tw htw

set_option maxRecDepth 100000 in
/-- C13, evaluated where it fails. Window 10 s, threshold 2, the steady clock at
`10^16` ns (116 days of uptime): a first failed fork at `10^16` ns, a second one
10.3 s later. The first event lies before `t - window_seconds`, so one event alone,
the killing one, is in `[t - window_seconds, t]`; yet `deal_with_event` kills at
the second event, because the `float` comparison of the code, whose numbers are
`2^30` ns apart at this magnitude, finds the window not expired. -/
theorem float_window_test_kills_outside_window :
    kill_counts (ε := Unit) pair_args (modify_event 7 "/root/c/pids.events")
        filename_to_listen_to (World.init [])
        [env_at (10 ^ 16), env_at (10 ^ 16 + 103 * 10 ^ 8)] = [0, 1] ∧
    kill_windows ([10 ^ 16, 10 ^ 16 + 103 * 10 ^ 8].zip [0, 1]) []
      = [(10 ^ 16 + 103 * 10 ^ 8, [10 ^ 16, 10 ^ 16 + 103 * 10 ^ 8])] ∧
    (([10 ^ 16, 10 ^ 16 + 103 * 10 ^ 8] : List Int).filter
      (fun u => decide ((10 ^ 16 + 103 * 10 ^ 8) - 10 * ticks_per_second ≤ u ∧
        u ≤ 10 ^ 16 + 103 * 10 ^ 8))).length = 1 ∧
    window_expired_exact (float_seconds 10) (10 ^ 16) (10 ^ 16 + 103 * 10 ^ 8) = true ∧
    window_expired (float_seconds 10) (10 ^ 16) (10 ^ 16 + 103 * 10 ^ 8) = false ∧
    float_of_ticks (10 ^ 16) = 9313226 * 2 ^ 30 * 2 ^ 149 ∧
    round_binary32 (float_of_ticks (10 ^ 16 + 103 * 10 ^ 8) - window_ticks (float_seconds 10))
      = 9313226 * 2 ^ 30 * 2 ^ 149 := by
  refine ⟨by decide, by decide, by decide, by decide, by decide, by decide, by decide⟩

end ForkbombKiller
